import Mathlib

/-!
The package gotests: test-stub derivation and render helpers.

A shallow embedding of `internal/models/models.go` and of the naming helpers of
`internal/render/render.go`, followed by the properties proved about them.

Conventions of the embedding

* A Go `string` is its byte sequence (`GoString`); a rune is a natural number.
* A pointer to a struct is modelled by the struct it points to (the field `Type`
  is written `Type_`, `Type` being a keyword); the only pointer
  the code tests against `nil`, `Function.Receiver`, is an `Option`.
* A `for ... range` loop that appends to a slice is a left fold over the list.
* An index expression that can go out of range makes the function return an
  `Option`; `none` is the run-time panic.
* The case and category tables of Go's `unicode` package are not part of the
  repository.  Their part beyond ASCII is the parameter `UnicodeTables`; the
  ASCII part is fixed by the definitions below.
-/

namespace Gotests

/-! ## Strings -/

/-- A Go string, as the list of its bytes. -/
abbrev GoString := List Nat

/-- The rune `utf8.RuneError` (U+FFFD). -/
def RuneError : Nat := 0xFFFD

/-- The UTF-8 encoding of one rune (`utf8.AppendRune`, which is also the
conversion `string(r)`): surrogates and values above U+10FFFF are written as
`RuneError`. -/
def encodeRune (r : Nat) : GoString :=
  if r < 0x80 then [r]
  else if r < 0x800 then [0xC0 + r / 64, 0x80 + r % 64]
  else if 0x10FFFF < r ∨ (0xD800 ≤ r ∧ r ≤ 0xDFFF) then [0xEF, 0xBF, 0xBD]
  else if r < 0x10000 then [0xE0 + r / 4096, 0x80 + r / 64 % 64, 0x80 + r % 64]
  else [0xF0 + r / 262144, 0x80 + r / 4096 % 64, 0x80 + r / 64 % 64, 0x80 + r % 64]

/-- The Go string written by a string literal. -/
def lit (s : String) : GoString :=
  (s.toList.map (fun c => encodeRune c.toNat)).flatten

/-- The function `strings.HasPrefix`. -/
def HasPrefix (s pre : GoString) : Bool :=
  pre.isPrefixOf s

/-- The function `strings.HasSuffix`. -/
def HasSuffix (s suf : GoString) : Bool :=
  suf.isSuffixOf s

/-- The function `strings.TrimSuffix`. -/
def TrimSuffix (s suf : GoString) : GoString :=
  if HasSuffix s suf then s.take (s.length - suf.length) else s

/-- The function `strings.Contains`. -/
def Contains (s sub : GoString) : Bool :=
  s.tails.any (fun t => sub.isPrefixOf t)

/-- The width-1 answer of the decoder for a byte that starts no valid
encoding. -/
def invalidRune : Nat × Nat := (RuneError, 1)

/-- The length of the encoding a leading byte `s0` in `0xC2 .. 0xF4` announces
(the low bits of the entry of `s0` in the table `first`). -/
def seqSize (s0 : Nat) : Nat :=
  if s0 < 0xE0 then 2 else if s0 < 0xF0 then 3 else 4

/-- The lowest second byte accepted after the leading byte `s0` (table
`acceptRanges`). -/
def acceptLo (s0 : Nat) : Nat :=
  if s0 = 0xE0 then 0xA0 else if s0 = 0xF0 then 0x90 else 0x80

/-- The highest second byte accepted after the leading byte `s0` (table
`acceptRanges`). -/
def acceptHi (s0 : Nat) : Nat :=
  if s0 = 0xED then 0x9F else if s0 = 0xF4 then 0x8F else 0xBF

/-- The function `utf8.DecodeRuneInString`: the first rune of `s` and its width
in bytes; `(RuneError, 0)` for the empty string and `(RuneError, 1)` for a byte
sequence that is not a valid encoding.  The masks `s0 & 0x1F`, `s0 & 0x0F`,
`s0 & 0x07` and `sN & 0x3F` are remainders. -/
def decodeRune (s : GoString) : Nat × Nat :=
  match s with
  | [] => (RuneError, 0)
  | s0 :: t =>
    if s0 < 0x80 then (s0, 1)
    else if s0 < 0xC2 ∨ 0xF4 < s0 then invalidRune
    else
      match t with
      | [] => invalidRune
      | s1 :: t1 =>
        if s1 < acceptLo s0 ∨ acceptHi s0 < s1 then invalidRune
        else if seqSize s0 ≤ 2 then (s0 % 32 * 64 + s1 % 64, 2)
        else
          match t1 with
          | [] => invalidRune
          | s2 :: t2 =>
            if s2 < 0x80 ∨ 0xBF < s2 then invalidRune
            else if seqSize s0 ≤ 3 then (s0 % 16 * 4096 + s1 % 64 * 64 + s2 % 64, 3)
            else
              match t2 with
              | [] => invalidRune
              | s3 :: _ =>
                if s3 < 0x80 ∨ 0xBF < s3 then invalidRune
                else (s0 % 8 * 262144 + s1 % 64 * 4096 + s2 % 64 * 64 + s3 % 64, 4)

/-- The expression `[]rune(s)[0]`: the first rune of `s`, and `none` (index out
of range) when `s` is empty. -/
def firstRune (s : GoString) : Option Nat :=
  match s with
  | [] => none
  | _ :: _ => some (decodeRune s).1

/-- The runes a `for _, c := range s` loop visits, decoding at most `fuel`
runes. -/
def runesFuel : Nat → GoString → List Nat
  | 0, _ => []
  | _ + 1, [] => []
  | fuel + 1, b :: t =>
    (decodeRune (b :: t)).1 :: runesFuel fuel ((b :: t).drop (decodeRune (b :: t)).2)

/-- The runes a `for _, c := range s` loop visits: every rune takes at least
one byte, so `s.length` steps decode all of `s`. -/
def runes (s : GoString) : List Nat :=
  runesFuel s.length s

/-- The decimal text `fmt.Sprintf("%v", i)` writes for an `int`. -/
def formatInt (i : Int) : GoString :=
  match i with
  | Int.ofNat n => (Nat.toDigits 10 n).map Char.toNat
  | Int.negSucc n => 0x2D :: (Nat.toDigits 10 (n + 1)).map Char.toNat

/-! ## The `unicode` package -/

/-- The tables of Go's `unicode` package for the runes from U+0080 on: the
category tests and the simple case mappings.  The package is not part of the
repository, so the tables are a parameter of everything that consults them. -/
structure UnicodeTables where
  isLower : Nat → Bool
  isLetter : Nat → Bool
  isDigit : Nat → Bool
  isSpace : Nat → Bool
  toUpper : Nat → Nat
  toLower : Nat → Nat
  toTitle : Nat → Nat

/-- Tables in which no rune beyond ASCII is a letter, a digit or a space, and
none has a case mapping.  They serve to evaluate the definitions on ASCII
inputs, where the tables are not consulted. -/
def asciiTables : UnicodeTables :=
  { isLower := fun _ => false
    isLetter := fun _ => false
    isDigit := fun _ => false
    isSpace := fun _ => false
    toUpper := fun r => r
    toLower := fun r => r
    toTitle := fun r => r }

/-- The function `unicode.IsLower`: in ASCII the lower-case letters are
`a` to `z`. -/
def unicodeIsLower (U : UnicodeTables) (r : Nat) : Bool :=
  if r < 0x80 then decide (0x61 ≤ r ∧ r ≤ 0x7A) else U.isLower r

/-- The function `unicode.ToUpper`, with its ASCII branch. -/
def unicodeToUpper (U : UnicodeTables) (r : Nat) : Nat :=
  if r < 0x80 then (if 0x61 ≤ r ∧ r ≤ 0x7A then r - 0x20 else r) else U.toUpper r

/-- The function `unicode.ToTitle`, with its ASCII branch. -/
def unicodeToTitle (U : UnicodeTables) (r : Nat) : Nat :=
  if r < 0x80 then (if 0x61 ≤ r ∧ r ≤ 0x7A then r - 0x20 else r) else U.toTitle r

/-- The function `isSeparator` of package `strings`: ASCII alphanumerics and
the underscore are no separators and every other ASCII rune is one; beyond
ASCII letters and digits are no separators and spaces are. -/
def isSeparator (U : UnicodeTables) (r : Nat) : Bool :=
  if r ≤ 0x7F then
    if 0x30 ≤ r ∧ r ≤ 0x39 then false
    else if 0x61 ≤ r ∧ r ≤ 0x7A then false
    else if 0x41 ≤ r ∧ r ≤ 0x5A then false
    else if r = 0x5F then false
    else true
  else if U.isLetter r || U.isDigit r then false
  else U.isSpace r

/-- The function `strings.Map` for a mapping that drops no rune: every rune of
`s`, invalid bytes read as `RuneError`, is replaced by the encoding of its
image. -/
def Map (mapping : Nat → Nat) (s : GoString) : GoString :=
  ((runes s).map (fun c => encodeRune (mapping c))).flatten

/-- The function `strings.ToUpper`. -/
def ToUpper (U : UnicodeTables) (s : GoString) : GoString :=
  Map (unicodeToUpper U) s

/-- One call of the closure `strings.Title` hands to `Map`: the state is the
previous rune `prev` and the text written so far. -/
def titleStep (U : UnicodeTables) (st : Nat × GoString) (r : Nat) : Nat × GoString :=
  if isSeparator U st.1 then (r, st.2 ++ encodeRune (unicodeToTitle U r))
  else (r, st.2 ++ encodeRune r)

/-- The function `strings.Title`: `Map` with a closure that remembers the
previous rune, starting from a blank, and title-cases a rune that follows a
separator. -/
def Title (U : UnicodeTables) (s : GoString) : GoString :=
  ((runes s).foldl (titleStep U) (0x20, [])).2

/-! ## Data model (`models.go`) -/

/-- The struct `Expression`. -/
structure Expression where
  Value : GoString
  IsStar : Bool
  IsVariadic : Bool
  IsWriter : Bool
  Underlying : GoString
  deriving DecidableEq, Repr

/-- The method `(*Expression).String`. -/
def Expression.String (e : Expression) : GoString :=
  let value := e.Value
  let value := if e.IsStar then lit "*" ++ value else value
  if e.IsVariadic then lit "[]" ++ value else value

/-- The struct `Field`. -/
structure Field where
  Name : GoString
  Type_ : Expression
  Index : Int
  deriving DecidableEq, Repr

/-- The method `(*Field).IsWriter`. -/
def Field.IsWriter (f : Field) : Bool :=
  f.Type_.IsWriter

/-- The struct `Receiver`: an embedded `Field` and the fields of its type. -/
structure Receiver extends Field where
  Fields : List Field
  deriving DecidableEq, Repr

/-- The struct `Function`. -/
structure Function where
  Name : GoString
  IsExported : Bool
  IsConstructor : Bool
  Receiver : Option Receiver
  Parameters : List Field
  Results : List Field
  ReturnsError : Bool
  deriving DecidableEq, Repr

/-- The method `(*Function).TestParameters`: the loop appends every parameter
that is not a writer. -/
def Function.TestParameters (f : Function) : List Field :=
  f.Parameters.foldl (fun ps p => if p.IsWriter then ps else ps ++ [p]) []

/-- The synthetic result `TestResults` appends for the writer parameter `p`
when the slice built so far is `ps`. -/
def writerResult (ps : List Field) (p : Field) : Field :=
  { Name := p.Name
    Type_ :=
      { Value := lit "string"
        IsStar := false
        IsVariadic := false
        IsWriter := true
        Underlying := lit "string" }
    Index := (ps.length : Int) }

/-- One iteration of the loop of `TestResults`: a parameter that is no writer
is skipped, a writer appends its synthetic field. -/
def testResultsStep (ps : List Field) (p : Field) : List Field :=
  if !p.IsWriter then ps else ps ++ [writerResult ps p]

/-- The method `(*Function).TestResults`: `Results` appended to the empty
slice, then one synthetic field for each writer parameter. -/
def Function.TestResults (f : Function) : List Field :=
  f.Parameters.foldl testResultsStep ([] ++ f.Results)

/-- A function with a plain parameter, a writer parameter and two results. -/
def exampleDump : Function :=
  { Name := lit "Dump"
    IsExported := true
    IsConstructor := false
    Receiver := none
    Parameters :=
      [⟨lit "n", ⟨lit "int", false, false, false, lit "int"⟩, 0⟩,
       ⟨lit "w", ⟨lit "io.Writer", false, false, true, lit "interface"⟩, 1⟩]
    Results :=
      [⟨lit "", ⟨lit "int", false, false, false, lit "int"⟩, 0⟩,
       ⟨lit "", ⟨lit "error", false, false, false, lit "interface"⟩, 1⟩]
    ReturnsError := true }

/-- The method `(*Function).ReturnsMultiple`. -/
def Function.ReturnsMultiple (f : Function) : Bool :=
  decide (f.Results.length > 1)

/-- The method `(*Function).OnlyReturnsOneValue`. -/
def Function.OnlyReturnsOneValue (f : Function) : Bool :=
  decide (f.Results.length = 1) && !f.ReturnsError

/-- The method `(*Function).OnlyReturnsError`. -/
def Function.OnlyReturnsError (f : Function) : Bool :=
  decide (f.Results.length = 0) && f.ReturnsError

/-- The names `isBasicType` lists in its `case`. -/
def basicTypeNames : List GoString :=
  [lit "bool", lit "string", lit "int", lit "int8", lit "int16", lit "int32",
   lit "int64", lit "uint", lit "uint8", lit "uint16", lit "uint32", lit "uint64",
   lit "uintptr", lit "byte", lit "rune", lit "float32", lit "float64",
   lit "complex64", lit "complex128"]

/-- The function `isBasicType` of package `models`. -/
def isBasicType (t : GoString) : Bool :=
  if t ∈ basicTypeNames then true
  else if HasPrefix t (lit "map[string]") then true
  else false

/-- The function `getBasicValue`. -/
def getBasicValue (t : GoString) : GoString :=
  if t = lit "bool" then lit "false"
  else if t = lit "string" then lit "\"stringValue\""
  else lit "0"

/-- The method `(*Field).GetBasicValue`. -/
def Field.GetBasicValue (f : Field) : GoString :=
  if isBasicType f.Type_.String then getBasicValue f.Type_.String
  else if isBasicType f.Type_.Underlying then getBasicValue f.Type_.Underlying
  else lit "nil"

/-- The method `(*Field).IsNamed`. -/
def Field.IsNamed (f : Field) : Bool :=
  f.Name != lit "" && f.Name != lit "_"

/-- The method `(*Function).TestName`; `none` is the panic of `[]rune(s)[0]`
on an empty string. -/
def Function.TestName (U : UnicodeTables) (f : Function) : Option GoString :=
  if HasPrefix f.Name (lit "Test") then some f.Name
  else
    match f.Receiver with
    | some r =>
      match firstRune r.Type_.Value with
      | none => none
      | some c =>
        let receiverType :=
          if unicodeIsLower U c then lit "_" ++ r.Type_.Value else r.Type_.Value
        some (lit "Test" ++ receiverType ++ lit "_" ++ f.Name)
    | none =>
      match firstRune f.Name with
      | none => none
      | some c =>
        if unicodeIsLower U c then some (lit "Test_" ++ f.Name)
        else some (lit "Test" ++ f.Name)

/-- The type `Path`. -/
abbrev Path := GoString

/-- The method `Path.IsTestPath`. -/
def Path.IsTestPath (p : Path) : Bool :=
  HasSuffix p (lit "_test.go")

/-- The method `Path.TestPath`. -/
def Path.TestPath (p : Path) : GoString :=
  if !Path.IsTestPath p then TrimSuffix p (lit ".go") ++ lit "_test.go"
  else p

/-! ## Naming helpers (`render.go`) -/

/-- The function `capitalize`: `len(s) > 1` counts bytes, `string(s[0])` is the
encoding of the rune whose value is the first byte, and `s[1:]` drops one
byte. -/
def capitalize (U : UnicodeTables) (s : GoString) : GoString :=
  match s with
  | s0 :: b :: t => ToUpper U (encodeRune s0) ++ (b :: t)
  | _ => ToUpper U s

/-- The function `wantName`. -/
def wantName (U : UnicodeTables) (f : Field) : GoString :=
  if f.IsNamed then lit "expected" ++ Title U f.Name
  else if f.Index = 0 then lit "expected"
  else lit "expected" ++ formatInt f.Index

/-- The function `gotName`. -/
def gotName (U : UnicodeTables) (f : Field) : GoString :=
  if f.IsNamed then lit "actual" ++ Title U f.Name
  else if f.Index = 0 then lit "actual"
  else lit "actual" ++ formatInt f.Index

/-- Whether a string starts with a lower-case letter: its first rune, if it has
one, satisfies `unicode.IsLower`. -/
def startsLower (U : UnicodeTables) (s : GoString) : Bool :=
  match firstRune s with
  | some c => unicodeIsLower U c
  | none => false

/-- A function without receiver, parameters or results, named `name`. -/
def freeFunction (name : GoString) : Function :=
  { Name := name
    IsExported := true
    IsConstructor := false
    Receiver := none
    Parameters := []
    Results := []
    ReturnsError := false }

/-- The method `name` on a receiver `r` of type `typeName`, returning only an
error. -/
def methodOn (typeName name : GoString) : Function :=
  { Name := name
    IsExported := true
    IsConstructor := false
    Receiver :=
      some
        { Name := lit "r"
          Type_ := ⟨typeName, true, false, false, lit "struct"⟩
          Index := 0
          Fields := [] }
    Parameters := []
    Results := []
    ReturnsError := true }

/-- The numeric and complex kinds of the catalogue of `isBasicType`: every name
of `basicTypeNames` other than `bool` and `string`. -/
def numericTypeNames : List GoString :=
  [lit "int", lit "int8", lit "int16", lit "int32", lit "int64", lit "uint",
   lit "uint8", lit "uint16", lit "uint32", lit "uint64", lit "uintptr",
   lit "byte", lit "rune", lit "float32", lit "float64", lit "complex64",
   lit "complex128"]

/-- The type text `GetBasicValue` consults: `String()` when that is basic, and
`Underlying` otherwise. -/
def consultedText (f : Field) : GoString :=
  if isBasicType f.Type_.String then f.Type_.String else f.Type_.Underlying

/-- A parameter of type `map[string]int`. -/
def mapField : Field :=
  { Name := lit "m"
    Type_ := ⟨lit "map[string]int", false, false, false, lit "map[string]int"⟩
    Index := 0 }

/-- The field named `éa` (bytes `C3 A9 61`), a Go identifier whose first
character is not ASCII. -/
def accentField : Field :=
  { Name := [0xC3, 0xA9, 0x61]
    Type_ := ⟨lit "int", false, false, false, lit "int"⟩
    Index := 0 }

/-- The field named `Count`. -/
def countField : Field :=
  { Name := lit "Count"
    Type_ := ⟨lit "int", false, false, false, lit "int"⟩
    Index := 0 }

/-- A string is valid UTF-8 when decoding it and encoding the runes again gives
the string back (an invalid byte would come back as the three bytes of
`RuneError`). -/
def validUTF8 (s : GoString) : Bool :=
  decide (((runes s).map encodeRune).flatten = s)

/-! ## Further helpers of `models.go` and `render.go` -/

/-- The function `unicode.ToLower`, with its ASCII branch. -/
def unicodeToLower (U : UnicodeTables) (r : Nat) : Nat :=
  if r < 0x80 then (if 0x41 ≤ r ∧ r ≤ 0x5A then r + 0x20 else r) else U.toLower r

/-- The function `strings.ToLower`. -/
def ToLower (U : UnicodeTables) (s : GoString) : GoString :=
  Map (unicodeToLower U) s

/-- The method `(*Field).ShortName`: `strings.ToLower(string([]rune(f.Type.Value)[0]))`;
`none` is the panic of the index expression on an empty `Value`. -/
def Field.ShortName (U : UnicodeTables) (f : Field) : Option GoString :=
  match firstRune f.Type_.Value with
  | none => none
  | some r => some (ToLower U (encodeRune r))

/-- The method `(*Field).HasNoPackage`. -/
def Field.HasNoPackage (f : Field) : Bool :=
  !isBasicType f.Type_.String && !Contains f.Type_.Value (lit ".")

/-- The function `isBasicType` of package `render`, a copy of the one of package
`models`. -/
def renderIsBasicType (t : GoString) : Bool :=
  if t ∈ basicTypeNames then true
  else if HasPrefix t (lit "map[string]") then true
  else false

/-- The function `addpackage`, the template helper `AddPackage`. -/
def addpackage (e : Expression) : Bool :=
  !renderIsBasicType e.Value && !Contains e.Value (lit ".")

/-- The remapping at the end of `receiverName`: `name` becomes `n`, `t` becomes
`tr`. -/
def avoidConflict (n : GoString) : GoString :=
  if n = lit "name" then lit "n"
  else if n = lit "t" then lit "tr"
  else n

/-- The function `receiverName`, the template helper `Receiver`; `none` is the
panic of `ShortName`. -/
def receiverName (U : UnicodeTables) (f : Receiver) : Option GoString :=
  match (if f.toField.IsNamed then some f.Name else f.toField.ShortName U) with
  | none => none
  | some n => some (avoidConflict n)

/-- The function `parameterName`, the template helper `Param`. -/
def parameterName (f : Field) : GoString :=
  if f.IsNamed then f.Name else lit "in" ++ formatInt f.Index

/-- The decimal digits of a natural number, as bytes. -/
def decimalDigits (n : Nat) : GoString :=
  (Nat.toDigits 10 n).map Char.toNat

/-- The number a string of decimal digits writes. -/
def decimalValue (s : GoString) : Nat :=
  s.foldl (fun acc c => acc * 10 + (c - 0x30)) 0

/-- An unnamed field of type `int` at position `i`. -/
def unnamedField (i : Int) : Field :=
  { Name := lit ""
    Type_ := ⟨lit "int", false, false, false, lit "int"⟩
    Index := i }

/-- A receiver named `name` of the struct type `typeName`. -/
def receiverOf (name typeName : GoString) : Receiver :=
  { Name := name
    Type_ := ⟨typeName, true, false, false, lit "struct"⟩
    Index := 0
    Fields := [] }

/-- Following the words of the specification of `Capitalize`: the string with
its first character (its first rune, of whatever width) replaced by the upper
case of that character, and the rest unchanged. -/
def upperFirst (U : UnicodeTables) (s : GoString) : GoString :=
  match s with
  | [] => []
  | b :: t =>
    encodeRune (unicodeToUpper U (decodeRune (b :: t)).1)
      ++ (b :: t).drop (decodeRune (b :: t)).2

/-- A field of type `*int`. -/
def pointerIntField : Field :=
  { Name := lit "p"
    Type_ := ⟨lit "int", true, false, false, lit "int"⟩
    Index := 0 }

/-- A field of type `int`. -/
def intField : Field :=
  { Name := lit "n"
    Type_ := ⟨lit "int", false, false, false, lit "int"⟩
    Index := 0 }

/-- A field of the local struct type `Tree`. -/
def treeField : Field :=
  { Name := lit "t"
    Type_ := ⟨lit "Tree", false, false, false, lit "struct"⟩
    Index := 0 }

/-- A type name is undecorated when it begins neither with `*` nor with
`[]`. -/
def undecorated (v : GoString) : Bool :=
  !HasPrefix v (lit "*") && !HasPrefix v (lit "[]")

/-- The parameters of `func F(in1 int, _ string)`: a parameter named `in1` at
position 0 and an unnamed one at position 1. -/
def collidingParameters : List Field :=
  [⟨lit "in1", ⟨lit "int", false, false, false, lit "int"⟩, 0⟩,
   ⟨lit "_", ⟨lit "string", false, false, false, lit "string"⟩, 1⟩]

/-- The parameters of `func F(n int, _ string, w io.Writer)`. -/
def plainParameters : List Field :=
  [⟨lit "n", ⟨lit "int", false, false, false, lit "int"⟩, 0⟩,
   ⟨lit "_", ⟨lit "string", false, false, false, lit "string"⟩, 1⟩,
   ⟨lit "w", ⟨lit "io.Writer", false, false, true, lit "interface"⟩, 2⟩]

/-! ## The template registry (`render.go`)

The package variable `tmpls` is passed explicitly: every loader takes the value
it finds and returns the value it leaves.  Package `text/template`, the file
system, the embedded catalogue of package `templates` and `path.Join` are not
part of the sources; they are the parameter `TemplateEnv`.  A parse tree is
represented by a string. -/

/-- The struct `Import`. -/
structure Import where
  Name : GoString
  Path : GoString
  deriving DecidableEq, Repr

/-- The struct `Header`. -/
structure Header where
  Comments : List GoString
  Package : GoString
  TestPackage : GoString
  Imports : List Import
  Code : GoString
  deriving DecidableEq, Repr

/-- The value of the package variable `tmpls`: the templates associated with it,
each a name with its parse tree. -/
abbrev Registry := List (GoString × GoString)

/-- The constant `nFile`. -/
def nFile : Nat := 7

/-- What the loaders and the renderer take from outside the sources. -/
structure TemplateEnv where
  /-- The parser of `text/template`: the trees, by name, that a text defines
  when parsed for the template `name`; `none` when the text does not parse. -/
  parse : (name : GoString) → (text : GoString) → Option (List (GoString × GoString))
  /-- The function `parse.IsEmptyTree`. -/
  isEmptyTree : GoString → Bool
  /-- The method `(*Template).Execute` of a template that was found: the bytes
  it writes, and whether it failed. -/
  execute : Registry → GoString → Header → GoString × Bool
  /-- The function `ioutil.ReadDir`: the names of the entries of a directory. -/
  readDir : GoString → Option (List GoString)
  /-- Reading a file for `ParseFiles`: its base name and its contents. -/
  readFile : GoString → Option (GoString × GoString)
  /-- The function `path.Join`. -/
  pathJoin : List GoString → GoString
  /-- Whether `templates.Dir(false, "/").Open` finds the name. -/
  catalogueOpen : GoString → Bool
  /-- The method `Readdir` of an opened catalogue directory: at most `n` entry
  names. -/
  catalogueReaddir : GoString → Nat → Option (List GoString)
  /-- The function `templates.FSString`. -/
  catalogueString : GoString → Option GoString

/-- The method `(*Template).Lookup`. -/
def lookupTemplate (tmpls : Registry) (name : GoString) : Option GoString :=
  (tmpls.find? (fun p => decide (p.1 = name))).map Prod.snd

/-- The method `(*Template).AddParseTree`: the tree replaces the template of
that name, unless the tree is empty and a template of that name exists. -/
def AddParseTree (E : TemplateEnv) (tmpls : Registry) (name tree : GoString) : Registry :=
  if (lookupTemplate tmpls name).isSome && E.isEmptyTree tree then tmpls
  else (name, tree) :: tmpls.filter (fun p => decide (p.1 ≠ name))

/-- The method `(*Template).Parse` for the template `name` of the set: every
tree the text defines is added; `none` is its error. -/
def Parse (E : TemplateEnv) (tmpls : Registry) (name text : GoString) : Option Registry :=
  match E.parse name text with
  | none => none
  | some trees => some (trees.foldl (fun t p => AddParseTree E t p.1 p.2) tmpls)

/-- The function `initEmptyTmpls`: `tmpls` becomes
`template.New("render").Funcs(templateFuncs)`, a set without any template,
whatever it was. -/
def initEmptyTmpls (_tmpls : Registry) : Registry :=
  []

/-- Why a loader did not succeed. -/
inductive LoadError where
  | mustPanic
  | readDir
  | parseFiles
  | catalogueOpen
  | catalogueReaddir
  | catalogueString
  | parse
  deriving DecidableEq, Repr

/-- The loop of `LoadFromData`; `none` is the panic of `template.Must`. -/
def parseData (E : TemplateEnv) : Registry → List GoString → Option Registry
  | tmpls, [] => some tmpls
  | tmpls, d :: rest =>
    match Parse E tmpls (lit "render") d with
    | none => none
    | some t => parseData E t rest

/-- The function `LoadFromData`. -/
def LoadFromData (E : TemplateEnv) (tmpls : Registry) (templateData : List GoString) :
    Except LoadError Registry :=
  let tmpls := initEmptyTmpls tmpls
  match parseData E tmpls templateData with
  | none => Except.error LoadError.mustPanic
  | some t => Except.ok t

/-- The loop of `(*Template).ParseFiles`: each file is read and parsed for the
template named by its base name. -/
def parseFiles (E : TemplateEnv) : Registry → List GoString → Option Registry
  | tmpls, [] => some tmpls
  | tmpls, filename :: rest =>
    match E.readFile filename with
    | none => none
    | some (name, text) =>
      match Parse E tmpls name text with
      | none => none
      | some t => parseFiles E t rest

/-- The method `(*Template).ParseFiles`: an error when no file is named. -/
def ParseFiles (E : TemplateEnv) (tmpls : Registry) (filenames : List GoString) :
    Option Registry :=
  if filenames.isEmpty then none else parseFiles E tmpls filenames

/-- The function `LoadCustomTemplates`. -/
def LoadCustomTemplates (E : TemplateEnv) (tmpls : Registry) (dir : GoString) :
    Except LoadError Registry :=
  let tmpls := initEmptyTmpls tmpls
  match E.readDir dir with
  | none => Except.error LoadError.readDir
  | some files =>
    let templateFiles := files.map (fun f => E.pathJoin [dir, f])
    match ParseFiles E tmpls templateFiles with
    | none => Except.error LoadError.parseFiles
    | some t => Except.ok t

/-- The loop of `LoadCustomTemplatesName`. -/
def parseCatalogue (E : TemplateEnv) (name : GoString) :
    Registry → List GoString → Except LoadError Registry
  | tmpls, [] => Except.ok tmpls
  | tmpls, f :: rest =>
    match E.catalogueString (E.pathJoin [lit "/", name, f]) with
    | none => Except.error LoadError.catalogueString
    | some text =>
      match Parse E tmpls (lit "render") text with
      | none => Except.error LoadError.parse
      | some t => parseCatalogue E name t rest

/-- The function `LoadCustomTemplatesName`. -/
def LoadCustomTemplatesName (E : TemplateEnv) (tmpls : Registry) (name : GoString) :
    Except LoadError Registry :=
  let tmpls := initEmptyTmpls tmpls
  if !E.catalogueOpen name then Except.error LoadError.catalogueOpen
  else
    match E.catalogueReaddir name nFile with
    | none => Except.error LoadError.catalogueReaddir
    | some files => parseCatalogue E name tmpls files

/-- The error of a render call. -/
inductive RenderError where
  | noTemplate (name : GoString)
  | execution
  deriving DecidableEq, Repr

/-- The method `(*Template).ExecuteTemplate` on the sink `w`, a buffer: an
error when no template of that name is associated with the set. -/
def ExecuteTemplate (E : TemplateEnv) (tmpls : Registry) (w name : GoString) (h : Header) :
    GoString × Option RenderError :=
  match lookupTemplate tmpls name with
  | none => (w, some (RenderError.noTemplate name))
  | some tree =>
    (w ++ (E.execute tmpls tree h).1,
      if (E.execute tmpls tree h).2 then some RenderError.execution else none)

/-- The function `Header` of package `render`: the template `header` is
executed, then `h.Code` is written to the sink. -/
def render.Header (E : TemplateEnv) (tmpls : Registry) (w : GoString) (h : Header) :
    GoString × Option RenderError :=
  match ExecuteTemplate E tmpls w (lit "header") h with
  | (w1, some err) => (w1, some err)
  | (w1, none) => (w1 ++ h.Code, none)

/-- An environment for evaluation: a text defines one template, named by its
first line, with the rest of the text as its tree; the file system and the
catalogue are empty. -/
def lineEnv : TemplateEnv :=
  { parse := fun _ text =>
      some [(text.takeWhile (fun b => b != 0x0A), (text.dropWhile (fun b => b != 0x0A)).drop 1)]
    isEmptyTree := fun tree => tree.isEmpty
    execute := fun _ tree _ => (tree, false)
    readDir := fun _ => none
    readFile := fun _ => none
    pathJoin := fun parts => parts.flatten
    catalogueOpen := fun _ => false
    catalogueReaddir := fun _ _ => none
    catalogueString := fun _ => none }

/-- A registry that holds the templates `header` and `function`. -/
def defaultRegistry : Registry :=
  [(lit "header", lit "package x"), (lit "function", lit "func TestX")]

/-- A header without comments and imports. -/
def emptyHeader : Header :=
  { Comments := []
    Package := lit "x"
    TestPackage := lit "x"
    Imports := []
    Code := lit "// code" }

/-- The type `...*Tree` of a variadic parameter of pointers to `Tree`. -/
def variadicPointerTree : Expression :=
  { Value := lit "Tree"
    IsStar := true
    IsVariadic := true
    IsWriter := false
    Underlying := lit "struct" }

/-! ## Properties -/

/-! ### Evaluation on concrete inputs -/

theorem lit_accent : lit "éa" = [0xC3, 0xA9, 0x61] := by decide

theorem formatInt_examples :
    formatInt 120 = lit "120" ∧ formatInt (-7) = lit "-7" ∧ formatInt 0 = lit "0" := by
  decide

theorem runes_examples :
    runes (lit "aé€😀b") = [0x61, 0xE9, 0x20AC, 0x1F600, 0x62]
      ∧ runes [0xC3] = [RuneError]
      ∧ runes [0x61, 0xFF, 0x62] = [0x61, RuneError, 0x62] := by
  decide

theorem title_examples :
    Title asciiTables (lit "count") = lit "Count"
      ∧ Title asciiTables (lit "a b") = lit "A B"
      ∧ Title asciiTables (lit "snake_case") = lit "Snake_case" := by
  decide

theorem capitalize_examples :
    capitalize asciiTables (lit "count") = lit "Count"
      ∧ capitalize asciiTables (lit "a b") = lit "A b"
      ∧ capitalize asciiTables (lit "x") = lit "X"
      ∧ capitalize asciiTables (lit "") = lit "" := by
  decide

theorem testPath_examples :
    Path.TestPath (lit "a/b.go") = lit "a/b_test.go"
      ∧ Path.TestPath (lit "a/b_test.go") = lit "a/b_test.go"
      ∧ Path.TestPath (lit "README") = lit "README_test.go" := by
  decide

/-! ### The decoder consumes its input -/

theorem decodeRune_width_pos (b : Nat) (t : GoString) : 1 ≤ (decodeRune (b :: t)).2 := by
  unfold decodeRune
  simp only [invalidRune]
  repeat' split
  all_goals simp

/-- Any fuel of at least the length of the string decodes the same runes: the
fuel `s.length` of `runes` never cuts the decoding short. -/
theorem runesFuel_of_le (n m : Nat) (s : GoString) (hn : s.length ≤ n)
    (hm : s.length ≤ m) : runesFuel n s = runesFuel m s := by
  induction n generalizing m s with
  | zero =>
    have hs : s = [] := List.eq_nil_of_length_eq_zero (by omega)
    subst hs
    cases m <;> rfl
  | succ n ih =>
    cases s with
    | nil => cases m <;> rfl
    | cons b t =>
      cases m with
      | zero => simp at hm
      | succ m =>
        have hw := decodeRune_width_pos b t
        have hlen : ((b :: t).drop (decodeRune (b :: t)).2).length ≤ t.length := by
          simp only [List.length_drop, List.length_cons]
          omega
        simp only [List.length_cons] at hn hm
        simp only [runesFuel]
        rw [ih m _ (by omega) (by omega)]

/-! ### The loop of `TestResults` -/

theorem testResults_eq_foldl (f : Function) :
    f.TestResults = f.Parameters.foldl testResultsStep f.Results := by
  simp only [Function.TestResults, List.nil_append]

theorem foldl_testResultsStep_length (params ps : List Field) :
    (params.foldl testResultsStep ps).length
      = ps.length + params.countP Field.IsWriter := by
  induction params generalizing ps with
  | nil => simp
  | cons p rest ih =>
    rw [List.foldl_cons, ih]
    cases hw : p.IsWriter
    · simp [testResultsStep, hw]
    · simp [testResultsStep, hw]
      omega

theorem foldl_testResultsStep_prefix (params ps : List Field) :
    ps <+: params.foldl testResultsStep ps := by
  induction params generalizing ps with
  | nil => simp
  | cons p rest ih =>
    rw [List.foldl_cons]
    refine List.IsPrefix.trans ?_ (ih _)
    cases hw : p.IsWriter
    · simp [testResultsStep, hw]
    · simp [testResultsStep, hw]

theorem foldl_testResultsStep_index (params ps : List Field)
    (h : ps.map Field.Index = (List.range ps.length).map Int.ofNat) :
    (params.foldl testResultsStep ps).map Field.Index
      = (List.range (params.foldl testResultsStep ps).length).map Int.ofNat := by
  induction params generalizing ps with
  | nil => simpa using h
  | cons p rest ih =>
    rw [List.foldl_cons]
    apply ih
    cases hw : p.IsWriter
    · simpa [testResultsStep, hw] using h
    · simp [testResultsStep, hw, List.range_succ, h, writerResult]

theorem map_index_of_pointwise (l : List Field)
    (h : ∀ (i : Nat) (hi : i < l.length), l[i].Index = (i : Int)) :
    l.map Field.Index = (List.range l.length).map Int.ofNat := by
  apply List.ext_getElem
  · simp
  · intro i h1 h2
    simp [h i (by simpa using h1)]

theorem pointwise_of_map_index (l : List Field)
    (h : l.map Field.Index = (List.range l.length).map Int.ofNat)
    (i : Nat) (hi : i < l.length) : l[i].Index = (i : Int) := by
  have h1 : (l.map Field.Index)[i]? = ((List.range l.length).map Int.ofNat)[i]? := by rw [h]
  simpa [hi] using h1

/-! ### Strings: prefixes, suffixes and first runes -/

theorem hasPrefix_append (p x : GoString) : HasPrefix (p ++ x) p = true := by
  simp [HasPrefix]

theorem hasSuffix_append (x q : GoString) : HasSuffix (x ++ q) q = true := by
  simp [HasSuffix]

theorem firstRune_of_ne_nil {s : GoString} (h : s ≠ []) :
    firstRune s = some (decodeRune s).1 := by
  cases s with
  | nil => exact absurd rfl h
  | cons b t => rfl

theorem firstRune_eq_some {s : GoString} {c : Nat} (h : firstRune s = some c) :
    s ≠ [] ∧ c = (decodeRune s).1 := by
  cases s with
  | nil => simp [firstRune] at h
  | cons b t =>
    simp only [firstRune, Option.some.injEq] at h
    exact ⟨by simp, h.symm⟩

/-- A string followed by an underscore has the first rune of the string: the
underscore completes no encoding the string leaves unfinished. -/
theorem decodeRune_append_underscore (s0 : Nat) (t x : GoString) :
    (decodeRune (s0 :: t ++ 0x5F :: x)).1 = (decodeRune (s0 :: t)).1 := by
  have hlo : 0x5F < acceptLo s0 := by
    unfold acceptLo
    split_ifs <;> omega
  rcases t with _ | ⟨s1, _ | ⟨s2, _ | ⟨s3, t3⟩⟩⟩
  · simp [decodeRune, hlo]
  · simp [decodeRune]
  · simp [decodeRune]
  · simp [decodeRune]

/-! ### C1 - C4 -/

/-- C1: `TestResults()` has `len(Results)` plus the number of writer-marked
parameters elements, and it begins with `Results`, in order. -/
theorem C1_testResults_length_prefix (f : Function) :
    f.TestResults.length = f.Results.length + f.Parameters.countP Field.IsWriter
      ∧ f.TestResults.take f.Results.length = f.Results := by
  rw [testResults_eq_foldl]
  refine ⟨foldl_testResultsStep_length _ _, ?_⟩
  obtain ⟨t, ht⟩ := foldl_testResultsStep_prefix f.Parameters f.Results
  rw [← ht]
  simp

/-- C2: when the `Index` of every element of `Results` is its position, the
`Index` of every element of `TestResults()`, synthetic fields included, is its
position; so the indices are 0, 1, 2, ... without gap or repetition. -/
theorem C2_testResults_index (f : Function)
    (h : ∀ (i : Nat) (hi : i < f.Results.length), f.Results[i].Index = (i : Int)) :
    (∀ (i : Nat) (hi : i < f.TestResults.length), f.TestResults[i].Index = (i : Int))
      ∧ f.TestResults.map Field.Index
          = (List.range f.TestResults.length).map Int.ofNat
      ∧ (f.TestResults.map Field.Index).Nodup := by
  have key : f.TestResults.map Field.Index
      = (List.range f.TestResults.length).map Int.ofNat := by
    rw [testResults_eq_foldl]
    exact foldl_testResultsStep_index _ _ (map_index_of_pointwise _ h)
  refine ⟨fun i hi => pointwise_of_map_index _ key i hi, key, ?_⟩
  rw [key]
  exact List.Nodup.map (fun a b hab => by simpa using hab) (List.nodup_range _)

/-- C2 at `exampleDump`: its two results are indexed 0 and 1, and the three
elements of `TestResults()` are indexed 0, 1 and 2. -/
theorem C2_testResults_index_witness :
    (∀ (i : Nat) (hi : i < exampleDump.Results.length),
        exampleDump.Results[i].Index = (i : Int))
      ∧ exampleDump.TestResults.map Field.Index = [0, 1, 2] := by
  have h0 : ∀ (i : Nat) (hi : i < exampleDump.Results.length),
      exampleDump.Results[i].Index = (i : Int) := by decide
  refine ⟨h0, ?_⟩
  have h := (C2_testResults_index exampleDump h0).2.1
  rw [h]
  decide

/-- C3: `TestParameters()` is the sub-list of the parameters that are not
writer-marked, in their original order. -/
theorem C3_testParameters_filter (f : Function) :
    f.TestParameters = f.Parameters.filter (fun p => !p.IsWriter) := by
  have key : ∀ (params ps : List Field),
      params.foldl (fun ps p => if p.IsWriter then ps else ps ++ [p]) ps
        = ps ++ params.filter (fun p => !p.IsWriter) := by
    intro params
    induction params with
    | nil => intro ps; simp
    | cons p rest ih =>
      intro ps
      rw [List.foldl_cons, ih]
      cases hw : p.IsWriter <;> simp [hw]
  simpa [Function.TestParameters] using key f.Parameters []

/-- C4: no two of `ReturnsMultiple()`, `OnlyReturnsOneValue()` and
`OnlyReturnsError()` hold together; exactly one of the four outcomes (one of
the three, or none of them) holds; and two functions with the same number of
results and the same `ReturnsError` get the same three answers. -/
theorem C4_arity_classification (f g : Function) :
    ¬ (f.ReturnsMultiple = true ∧ f.OnlyReturnsOneValue = true)
      ∧ ¬ (f.ReturnsMultiple = true ∧ f.OnlyReturnsError = true)
      ∧ ¬ (f.OnlyReturnsOneValue = true ∧ f.OnlyReturnsError = true)
      ∧ [f.ReturnsMultiple, f.OnlyReturnsOneValue, f.OnlyReturnsError,
          !f.ReturnsMultiple && !f.OnlyReturnsOneValue && !f.OnlyReturnsError].count true = 1
      ∧ (g.Results.length = f.Results.length ∧ g.ReturnsError = f.ReturnsError →
          g.ReturnsMultiple = f.ReturnsMultiple
            ∧ g.OnlyReturnsOneValue = f.OnlyReturnsOneValue
            ∧ g.OnlyReturnsError = f.OnlyReturnsError) := by
  simp only [Function.ReturnsMultiple, Function.OnlyReturnsOneValue,
    Function.OnlyReturnsError]
  refine ⟨?_, ?_, ?_, ?_, ?_⟩
  · rintro ⟨h1, h2⟩
    rw [decide_eq_true_eq] at h1
    rw [Bool.and_eq_true, decide_eq_true_eq] at h2
    omega
  · rintro ⟨h1, h2⟩
    rw [decide_eq_true_eq] at h1
    rw [Bool.and_eq_true, decide_eq_true_eq] at h2
    omega
  · rintro ⟨h1, h2⟩
    rw [Bool.and_eq_true, decide_eq_true_eq] at h1 h2
    omega
  · rcases Nat.lt_trichotomy f.Results.length 1 with h | h | h
    · have h0 : f.Results.length = 0 := by omega
      cases hr : f.ReturnsError <;> simp [h0, hr]
    · cases hr : f.ReturnsError <;> simp [h, hr]
    · have h1 : f.Results.length ≠ 1 := by omega
      have h0 : f.Results.length ≠ 0 := by omega
      cases hr : f.ReturnsError <;> simp [h, h0, h1, hr]
  · rintro ⟨hl, hr⟩
    rw [hl, hr]
    exact ⟨rfl, rfl, rfl⟩

/-! ### C5 - C8: `TestName` and `TestPath` -/

theorem lit_test_underscore : lit "Test_" = lit "Test" ++ lit "_" := by decide

/-- What `TestName` returns under its precondition, branch by branch. -/
theorem testName_eq (U : UnicodeTables) (f : Function) (hName : f.Name ≠ [])
    (hRecv : ∀ r, f.Receiver = some r → r.Type_.Value ≠ []) :
    f.TestName U = some
      (if HasPrefix f.Name (lit "Test") then f.Name
       else
        match f.Receiver with
        | some r =>
          if startsLower U r.Type_.Value then
            lit "Test_" ++ r.Type_.Value ++ lit "_" ++ f.Name
          else lit "Test" ++ r.Type_.Value ++ lit "_" ++ f.Name
        | none =>
          if startsLower U f.Name then lit "Test_" ++ f.Name
          else lit "Test" ++ f.Name) := by
  unfold Function.TestName
  by_cases hp : HasPrefix f.Name (lit "Test") = true
  · simp [hp]
  · simp only [hp, if_false, Bool.false_eq_true]
    cases hr : f.Receiver with
    | none =>
      simp only [startsLower, firstRune_of_ne_nil hName]
      split_ifs <;> rfl
    | some r =>
      have hv := hRecv r hr
      simp only [startsLower, firstRune_of_ne_nil hv]
      split_ifs
      · simp [lit_test_underscore]
      · rfl

/-- Every branch of `TestName` returns a name that begins with `Test`. -/
theorem testName_hasPrefix (U : UnicodeTables) (f : Function) (n : GoString)
    (h : f.TestName U = some n) : HasPrefix n (lit "Test") = true := by
  unfold Function.TestName at h
  by_cases hp : HasPrefix f.Name (lit "Test") = true
  · simp only [hp, if_true, Option.some.injEq] at h
    rw [← h]
    exact hp
  · simp only [hp, if_false, Bool.false_eq_true] at h
    cases hr : f.Receiver with
    | none =>
      rw [hr] at h
      cases hc : firstRune f.Name with
      | none => simp [hc] at h
      | some c =>
        simp only [hc] at h
        split_ifs at h
        · simp only [Option.some.injEq] at h
          rw [← h, lit_test_underscore, List.append_assoc]
          exact hasPrefix_append _ _
        · simp only [Option.some.injEq] at h
          rw [← h]
          exact hasPrefix_append _ _
    | some r =>
      rw [hr] at h
      cases hc : firstRune r.Type_.Value with
      | none => simp [hc] at h
      | some c =>
        simp only [hc, Option.some.injEq] at h
        rw [← h, List.append_assoc, List.append_assoc]
        exact hasPrefix_append _ _

/-- C5: under the precondition (non-empty `Name`, non-empty receiver type
name), `TestName()` returns a name `n`, and the function whose `Name` is `n`
has `TestName()` equal to `n` again; a `Name` that begins with `Test` is
returned unchanged. -/
theorem C5_testName_idempotent (U : UnicodeTables) (f : Function)
    (hName : f.Name ≠ [])
    (hRecv : ∀ r, f.Receiver = some r → r.Type_.Value ≠ []) :
    ∃ n, f.TestName U = some n
      ∧ Function.TestName U { f with Name := n } = some n
      ∧ (HasPrefix f.Name (lit "Test") = true → n = f.Name) := by
  obtain ⟨n, hn⟩ : ∃ n, f.TestName U = some n := ⟨_, testName_eq U f hName hRecv⟩
  refine ⟨n, hn, ?_, ?_⟩
  · have hp := testName_hasPrefix U f n hn
    simp only [Function.TestName, hp, if_true]
  · intro hp
    simp only [Function.TestName, hp, if_true, Option.some.injEq] at hn
    exact hn.symm

/-- C5 at the method `Save` on the receiver type `repo`: `TestName()` is
`Test_repo_Save`, and renaming the method to that leaves it there. -/
theorem C5_testName_idempotent_witness :
    (methodOn (lit "repo") (lit "Save")).Name ≠ []
      ∧ (∀ r, (methodOn (lit "repo") (lit "Save")).Receiver = some r → r.Type_.Value ≠ [])
      ∧ ∃ n, (methodOn (lit "repo") (lit "Save")).TestName asciiTables = some n
          ∧ Function.TestName asciiTables
              { methodOn (lit "repo") (lit "Save") with Name := n } = some n
          ∧ (HasPrefix (methodOn (lit "repo") (lit "Save")).Name (lit "Test") = true →
              n = (methodOn (lit "repo") (lit "Save")).Name) :=
  have h1 : (methodOn (lit "repo") (lit "Save")).Name ≠ [] := by decide
  have h2 : ∀ r, (methodOn (lit "repo") (lit "Save")).Receiver = some r →
      r.Type_.Value ≠ [] := by
    intro r hr
    simp only [methodOn, Option.some.injEq] at hr
    rw [← hr]
    decide
  ⟨h1, h2, C5_testName_idempotent asciiTables _ h1 h2⟩

/-- C6: `TestPath` applied to its own result returns that result, and a path
that ends in `_test.go` is returned unchanged. -/
theorem C6_testPath_idempotent (p : Path) :
    Path.TestPath (Path.TestPath p) = Path.TestPath p
      ∧ (HasSuffix p (lit "_test.go") = true → Path.TestPath p = p) := by
  have fixed : ∀ q : Path, HasSuffix q (lit "_test.go") = true → Path.TestPath q = q := by
    intro q hq
    simp [Path.TestPath, Path.IsTestPath, hq]
  refine ⟨?_, fixed p⟩
  apply fixed
  cases h : Path.IsTestPath p
  · simp only [Path.TestPath, h]
    exact hasSuffix_append _ _
  · simp only [Path.TestPath, h]
    exact h

theorem lit_underscore : lit "_" = [0x5F] := by decide

theorem firstRune_underscore_cons (x : GoString) : firstRune (0x5F :: x) = some 0x5F := by
  simp [firstRune, decodeRune]

theorem unicodeIsLower_underscore (U : UnicodeTables) : unicodeIsLower U 0x5F = false := by
  simp [unicodeIsLower]

theorem startsLower_eq_false {U : UnicodeTables} {s : GoString} {c : Nat}
    (h : startsLower U s = false) (hc : firstRune s = some c) :
    unicodeIsLower U c = false := by
  simpa [startsLower, hc] using h

/-- With an empty name, or an empty receiver type name, `TestName` indexes an
empty rune slice, whatever the Unicode tables. -/
theorem testName_empty (U : UnicodeTables) :
    (freeFunction (lit "")).TestName U = none
      ∧ (methodOn (lit "") (lit "Save")).TestName U = none := by
  have hr : firstRune (lit "") = none := by decide
  constructor
  · have h : HasPrefix (lit "") (lit "Test") = false := by decide
    simp [Function.TestName, freeFunction, h, hr]
  · have h : HasPrefix (lit "Save") (lit "Test") = false := by decide
    simp [Function.TestName, methodOn, h, hr]

/-- C7, the claim as stated fails: a function named with the empty string has
no receiver and a name that does not begin with `Test`, and a method `Save`
whose receiver type name is empty has a name that does not begin with `Test`;
for both `TestName()` returns no name at all, under any Unicode tables. -/
theorem C7_testName_counterexample :
    (HasPrefix (freeFunction (lit "")).Name (lit "Test") = false
        ∧ (freeFunction (lit "")).Receiver = none
        ∧ ¬ ∃ (U : UnicodeTables) (n : GoString),
            (freeFunction (lit "")).TestName U = some n)
      ∧ (HasPrefix (methodOn (lit "") (lit "Save")).Name (lit "Test") = false
        ∧ ¬ ∃ (U : UnicodeTables) (n : GoString),
            (methodOn (lit "") (lit "Save")).TestName U = some n) := by
  refine ⟨⟨by decide, rfl, ?_⟩, by decide, ?_⟩
  · rintro ⟨U, n, h⟩
    rw [(testName_empty U).1] at h
    exact Option.noConfusion h
  · rintro ⟨U, n, h⟩
    rw [(testName_empty U).2] at h
    exact Option.noConfusion h

/-- C7, amended: for a function with a non-empty `Name` that does not begin
with `Test` (and a non-empty receiver type name `R` when it has a receiver),
`TestName()` is `Test_` + `R` + `_` + `Name` when `R` starts with a lower-case
letter and `Test` + `R` + `_` + `Name` otherwise; without receiver it is
`Test_` + `Name` when `Name` starts with a lower-case letter and `Test` + `Name`
otherwise. -/
theorem C7_testName_shape (U : UnicodeTables) (f : Function)
    (hName : f.Name ≠ [])
    (hRecv : ∀ r, f.Receiver = some r → r.Type_.Value ≠ [])
    (hTest : HasPrefix f.Name (lit "Test") = false) :
    (∀ r, f.Receiver = some r →
        f.TestName U = some
          (if startsLower U r.Type_.Value then
            lit "Test_" ++ r.Type_.Value ++ lit "_" ++ f.Name
           else lit "Test" ++ r.Type_.Value ++ lit "_" ++ f.Name))
      ∧ (f.Receiver = none →
        f.TestName U = some
          (if startsLower U f.Name then lit "Test_" ++ f.Name
           else lit "Test" ++ f.Name)) := by
  have h := testName_eq U f hName hRecv
  simp only [hTest, if_false, Bool.false_eq_true] at h
  constructor
  · intro r hr
    rw [h, hr]
  · intro hr
    rw [h, hr]

/-- C7 at the two examples of the claim: the method `Save` on the receiver type
`repo` gives `Test_repo_Save`, the free function `Double` gives `TestDouble`. -/
theorem C7_testName_shape_witness :
    (methodOn (lit "repo") (lit "Save")).TestName asciiTables
        = some (lit "Test_repo_Save")
      ∧ (freeFunction (lit "Double")).TestName asciiTables = some (lit "TestDouble") := by
  have h2 : ∀ r, (methodOn (lit "repo") (lit "Save")).Receiver = some r →
      r.Type_.Value ≠ [] := by
    intro r hr
    simp only [methodOn, Option.some.injEq] at hr
    rw [← hr]
    decide
  have h3 : ∀ r, (freeFunction (lit "Double")).Receiver = some r →
      r.Type_.Value ≠ [] := by
    intro r hr
    simp [freeFunction] at hr
  constructor
  · rw [(C7_testName_shape asciiTables (methodOn (lit "repo") (lit "Save"))
      (by decide) h2 (by decide)).1 _ rfl]
    decide
  · rw [(C7_testName_shape asciiTables (freeFunction (lit "Double"))
      (by decide) h3 (by decide)).2 rfl]
    decide

theorem lit_test : lit "Test" = [0x54, 0x65, 0x73, 0x74] := by decide

/-- What `TestName` guarantees: under the precondition the name it returns
begins with `Test`; a `Name` that begins with `Test` is returned as it is; and
unless `Name` is `Test` followed by a lower-case letter, the character right
after the prefix, if there is one, is not a lower-case letter. -/
theorem testName_recognised_unless_test_lower (U : UnicodeTables) (f : Function)
    (hName : f.Name ≠ [])
    (hRecv : ∀ r, f.Receiver = some r → r.Type_.Value ≠ []) :
    ∃ rest, f.TestName U = some (lit "Test" ++ rest)
      ∧ (HasPrefix f.Name (lit "Test") = true → f.TestName U = some f.Name)
      ∧ (¬ (HasPrefix f.Name (lit "Test") = true ∧ startsLower U (f.Name.drop 4) = true) →
          ∀ c, firstRune rest = some c → unicodeIsLower U c = false)
      ∧ ((HasPrefix f.Name (lit "Test") = true ∧ startsLower U (f.Name.drop 4) = true) →
          ∃ c, firstRune rest = some c ∧ unicodeIsLower U c = true) := by
  have h := testName_eq U f hName hRecv
  by_cases hp : HasPrefix f.Name (lit "Test") = true
  · obtain ⟨t, ht⟩ : lit "Test" <+: f.Name := by simpa [HasPrefix] using hp
    have hdrop : f.Name.drop 4 = t := by
      rw [← ht, lit_test]
      rfl
    have hret : f.TestName U = some f.Name := by
      rw [h]
      simp [hp]
    refine ⟨t, ?_, fun _ => hret, ?_, ?_⟩
    · rw [hret, ht]
    · intro hnot c hc
      have hl : startsLower U t = false := by
        cases hs : startsLower U t
        · rfl
        · exact absurd ⟨hp, by rw [hdrop]; exact hs⟩ hnot
      exact startsLower_eq_false hl hc
    · rintro ⟨_, hs⟩
      rw [hdrop] at hs
      cases hc : firstRune t with
      | none => simp [startsLower, hc] at hs
      | some c => exact ⟨c, rfl, by simpa [startsLower, hc] using hs⟩
  · have hpf : ¬ (HasPrefix f.Name (lit "Test") = true
        ∧ startsLower U (f.Name.drop 4) = true) := fun hh => hp hh.1
    simp only [hp, if_false, Bool.false_eq_true] at h
    cases hr : f.Receiver with
    | none =>
      rw [hr] at h
      cases hl : startsLower U f.Name with
      | true =>
        refine ⟨lit "_" ++ f.Name, ?_, fun hh => absurd hh hp, ?_, fun hh => absurd hh hpf⟩
        · rw [h]
          simp [hl, lit_test_underscore]
        · intro _ c hc
          rw [lit_underscore, List.singleton_append, firstRune_underscore_cons] at hc
          rw [← Option.some.inj hc]
          exact unicodeIsLower_underscore U
      | false =>
        refine ⟨f.Name, ?_, fun hh => absurd hh hp, ?_, fun hh => absurd hh hpf⟩
        · rw [h]
          simp [hl]
        · intro _ c hc
          exact startsLower_eq_false hl hc
    | some r =>
      rw [hr] at h
      have hv := hRecv r hr
      cases hl : startsLower U r.Type_.Value with
      | true =>
        refine ⟨lit "_" ++ r.Type_.Value ++ lit "_" ++ f.Name, ?_, fun hh => absurd hh hp, ?_,
          fun hh => absurd hh hpf⟩
        · rw [h]
          simp [hl, lit_test_underscore]
        · intro _ c hc
          rw [lit_underscore, List.append_assoc, List.append_assoc, List.singleton_append,
            firstRune_underscore_cons] at hc
          rw [← Option.some.inj hc]
          exact unicodeIsLower_underscore U
      | false =>
        refine ⟨r.Type_.Value ++ lit "_" ++ f.Name, ?_, fun hh => absurd hh hp, ?_,
          fun hh => absurd hh hpf⟩
        · rw [h]
          simp [hl]
        · intro _ c hc
          obtain ⟨s0, t, hst⟩ : ∃ s0 t, r.Type_.Value = s0 :: t := by
            cases hval : r.Type_.Value with
            | nil => exact absurd hval hv
            | cons s0 t => exact ⟨s0, t, rfl⟩
          have hc2 : firstRune r.Type_.Value = some c := by
            rw [hst] at hc ⊢
            rw [lit_underscore, List.append_assoc, List.singleton_append] at hc
            simp only [firstRune, List.cons_append, Option.some.injEq] at hc ⊢
            rw [← hc]
            exact (decodeRune_append_underscore s0 t f.Name).symm
          exact startsLower_eq_false hl hc2

/-- The guarantee of `TestName` at four functions: `Save` on the receiver type
`repo` gives `Test_repo_Save`, `testify` gives `Test_testify` and `double` gives
`Test_double`, each with `_` after the prefix, and `TestFoo` is returned as it
is, with the upper-case `F` after the prefix. -/
theorem testName_recognised_examples :
    (methodOn (lit "repo") (lit "Save")).TestName asciiTables = some (lit "Test_repo_Save")
      ∧ (freeFunction (lit "testify")).TestName asciiTables = some (lit "Test_testify")
      ∧ (freeFunction (lit "double")).TestName asciiTables = some (lit "Test_double")
      ∧ (freeFunction (lit "TestFoo")).TestName asciiTables = some (lit "TestFoo")
      ∧ firstRune (lit "Foo") = some 0x46
      ∧ unicodeIsLower asciiTables 0x46 = false := by
  decide

/-- C8 at the function `Testify`, which has a non-empty name and no receiver:
`TestName()` returns `Testify` as it is, under any Unicode tables, and the
character right after the prefix `Test` is the lower-case letter `i`, so the
name is not one the test framework recognises; the function `testify`, through
the sibling branch, gets `Test_testify`. -/
theorem C8_testName_testify :
    (freeFunction (lit "Testify")).Name ≠ []
      ∧ (freeFunction (lit "Testify")).Receiver = none
      ∧ (¬ ∃ U : UnicodeTables,
          (freeFunction (lit "Testify")).TestName U ≠ some (lit "Test" ++ lit "ify"))
      ∧ firstRune (lit "ify") = some 0x69
      ∧ (¬ ∃ U : UnicodeTables, unicodeIsLower U 0x69 = false)
      ∧ (¬ ∃ (U : UnicodeTables) (rest : GoString),
          (freeFunction (lit "Testify")).TestName U = some (lit "Test" ++ rest)
            ∧ ∀ c, firstRune rest = some c → unicodeIsLower U c = false)
      ∧ (¬ ∃ U : UnicodeTables,
          (freeFunction (lit "testify")).TestName U ≠ some (lit "Test_" ++ lit "testify")) := by
  have hp : HasPrefix (lit "Testify") (lit "Test") = true := by decide
  have hsplit : lit "Testify" = lit "Test" ++ lit "ify" := by decide
  have hval : ∀ U : UnicodeTables,
      (freeFunction (lit "Testify")).TestName U = some (lit "Test" ++ lit "ify") := by
    intro U
    rw [← hsplit]
    simp only [Function.TestName, freeFunction, hp, if_true]
  have hi : firstRune (lit "ify") = some 0x69 := by decide
  have hlow : ∀ U : UnicodeTables, unicodeIsLower U 0x69 = true := by
    intro U
    simp [unicodeIsLower]
  refine ⟨by decide, rfl, ?_, hi, ?_, ?_, ?_⟩
  · rintro ⟨U, h⟩
    exact h (hval U)
  · rintro ⟨U, h⟩
    rw [hlow U] at h
    exact absurd h (by decide)
  · rintro ⟨U, rest, h, hc⟩
    rw [hval U] at h
    have hrest : rest = lit "ify" := (List.append_cancel_left (Option.some.inj h)).symm
    have := hc 0x69 (by rw [hrest]; exact hi)
    rw [hlow U] at this
    exact absurd this (by decide)
  · rintro ⟨U, h⟩
    apply h
    have hp2 : HasPrefix (lit "testify") (lit "Test") = false := by decide
    have hf : firstRune (lit "testify") = some 0x74 := by decide
    have hl : unicodeIsLower U 0x74 = true := by simp [unicodeIsLower]
    simp only [Function.TestName, freeFunction, hp2, hf, hl, if_true, Bool.false_eq_true,
      if_false]

/-! ### C9: `GetBasicValue` -/

theorem basicTypeNames_eq :
    basicTypeNames = lit "bool" :: lit "string" :: numericTypeNames := by decide

/-- What `GetBasicValue` returns, by the text it consults: the claimed literal
for `bool`, for `string` and for the numeric kinds, `nil` for a text that is
neither in the catalogue nor begins with `map[string]`, and `0` for a text
outside the catalogue that begins with `map[string]`. -/
theorem getBasicValue_cases (f : Field) :
    (consultedText f = lit "bool" → f.GetBasicValue = lit "false")
      ∧ (consultedText f = lit "string" → f.GetBasicValue = lit "\"stringValue\"")
      ∧ (consultedText f ∈ numericTypeNames → f.GetBasicValue = lit "0")
      ∧ (consultedText f ∉ basicTypeNames →
          HasPrefix (consultedText f) (lit "map[string]") = false →
          f.GetBasicValue = lit "nil")
      ∧ (consultedText f ∉ basicTypeNames →
          HasPrefix (consultedText f) (lit "map[string]") = true →
          f.GetBasicValue = lit "0") := by
  have hb : isBasicType (lit "bool") = true := by decide
  have hs : isBasicType (lit "string") = true := by decide
  have hsb : lit "string" ≠ lit "bool" := by decide
  have hnum : ∀ t ∈ numericTypeNames,
      isBasicType t = true ∧ t ≠ lit "bool" ∧ t ≠ lit "string" := by decide
  have hget : f.GetBasicValue
      = if isBasicType (consultedText f) then getBasicValue (consultedText f)
        else lit "nil" := by
    unfold Field.GetBasicValue consultedText
    by_cases h1 : isBasicType f.Type_.String = true
    · simp [h1]
    · simp [h1]
  refine ⟨?_, ?_, ?_, ?_, ?_⟩
  · intro h
    rw [hget, h, hb]
    simp [getBasicValue]
  · intro h
    rw [hget, h, hs]
    simp [getBasicValue, hsb]
  · intro h
    obtain ⟨h1, h2, h3⟩ := hnum _ h
    rw [hget, h1]
    simp [getBasicValue, h2, h3]
  · intro h hp
    rw [hget]
    simp [isBasicType, h, hp]
  · intro h hp
    have h2 : consultedText f ≠ lit "bool" := by
      intro he
      exact h (by rw [he]; decide)
    have h3 : consultedText f ≠ lit "string" := by
      intro he
      exact h (by rw [he]; decide)
    rw [hget]
    simp [isBasicType, h, hp, getBasicValue, h2, h3]

/-- C9 at a field of type `map[string]int`: the type text is none of the names
of the catalogue, `isBasicType` accepts it for its prefix `map[string]`, and
`GetBasicValue()` returns `0`, the default of `getBasicValue`, where the claim
says `nil`. -/
theorem C9_getBasicValue_map :
    consultedText mapField = lit "map[string]int"
      ∧ consultedText mapField ∉ basicTypeNames
      ∧ mapField.GetBasicValue = lit "0"
      ∧ mapField.GetBasicValue ≠ lit "nil" := by
  decide

/-! ### C10: `wantName` and `gotName` on a named field -/

/-- The first byte of an encoding fixes its length. -/
theorem encodeRune_shape (r : Nat) :
    ∃ h t, encodeRune r = h :: t
      ∧ t.length = (if h < 0x80 then 0 else if h < 0xE0 then 1 else if h < 0xF0 then 2 else 3) := by
  unfold encodeRune
  split_ifs with h1 h2 h3 h4
  · exact ⟨_, _, rfl, by simp [h1]⟩
  · refine ⟨_, _, rfl, ?_⟩
    have : ¬ (0xC0 + r / 64 < 0x80) := by omega
    have : 0xC0 + r / 64 < 0xE0 := by omega
    simp [*]
  · exact ⟨_, _, rfl, by simp⟩
  · refine ⟨_, _, rfl, ?_⟩
    have : ¬ (0xE0 + r / 4096 < 0x80) := by omega
    have : ¬ (0xE0 + r / 4096 < 0xE0) := by omega
    have : 0xE0 + r / 4096 < 0xF0 := by omega
    simp [*]
  · refine ⟨_, _, rfl, ?_⟩
    have : ¬ (0xF0 + r / 262144 < 0x80) := by omega
    have : ¬ (0xF0 + r / 262144 < 0xE0) := by omega
    have : ¬ (0xF0 + r / 262144 < 0xF0) := by omega
    simp [*]

/-- No encoding followed by one byte is an encoding followed by two bytes. -/
theorem encodeRune_append_ne (a b x y z : Nat) :
    encodeRune a ++ [x] ≠ encodeRune b ++ [y, z] := by
  obtain ⟨h1, t1, e1, l1⟩ := encodeRune_shape a
  obtain ⟨h2, t2, e2, l2⟩ := encodeRune_shape b
  rw [e1, e2]
  intro h
  simp only [List.cons_append, List.cons.injEq] at h
  obtain ⟨hh, ht⟩ := h
  have hl := congrArg List.length ht
  simp only [List.length_append, List.length_cons, List.length_nil] at hl
  rw [hh] at l1
  omega

theorem runes_accent : runes [0xC3, 0xA9, 0x61] = [0xE9, 0x61] := by decide

theorem title_accent (U : UnicodeTables) :
    Title U [0xC3, 0xA9, 0x61]
      = encodeRune (U.toTitle 0xE9) ++ [if isSeparator U 0xE9 then 0x41 else 0x61] := by
  have h20 : isSeparator U 0x20 = true := by simp [isSeparator]
  have ht : unicodeToTitle U 0xE9 = U.toTitle 0xE9 := by simp [unicodeToTitle]
  have ha : encodeRune (unicodeToTitle U 0x61) = [0x41] := by
    simp [unicodeToTitle, encodeRune]
  have hb : encodeRune 0x61 = [0x61] := by decide
  cases hsep : isSeparator U 0xE9 <;>
    simp [Title, runes_accent, titleStep, h20, ht, ha, hb, hsep]

theorem capitalize_accent (U : UnicodeTables) :
    capitalize U [0xC3, 0xA9, 0x61] = encodeRune (U.toUpper 0xC3) ++ [0xA9, 0x61] := by
  have he : encodeRune 0xC3 = [0xC3, 0x83] := by decide
  have hr : runes [0xC3, 0x83] = [0xC3] := by decide
  have hu : unicodeToUpper U 0xC3 = U.toUpper 0xC3 := by simp [unicodeToUpper]
  simp [capitalize, ToUpper, Map, he, hr, hu]

/-- C10, the claim as stated fails: the field named `éa` is named, and under no
Unicode tables is the `Want` name `expected` followed by `Capitalize(Name)`, nor
the `Got` name `actual` followed by it: `wantName` and `gotName` call
`strings.Title`, which title-cases the first rune, where `capitalize` upper-cases
the first byte. -/
theorem C10_wantName_counterexample :
    accentField.IsNamed = true
      ∧ (¬ ∃ U : UnicodeTables,
          wantName U accentField = lit "expected" ++ capitalize U accentField.Name)
      ∧ (¬ ∃ U : UnicodeTables,
          gotName U accentField = lit "actual" ++ capitalize U accentField.Name) := by
  have hn : accentField.IsNamed = true := by decide
  have hname : accentField.Name = [0xC3, 0xA9, 0x61] := rfl
  refine ⟨hn, ?_, ?_⟩
  · rintro ⟨U, h⟩
    simp only [wantName, hn, if_true, hname, title_accent, capitalize_accent] at h
    exact encodeRune_append_ne _ _ _ _ _ (List.append_cancel_left h)
  · rintro ⟨U, h⟩
    simp only [gotName, hn, if_true, hname, title_accent, capitalize_accent] at h
    exact encodeRune_append_ne _ _ _ _ _ (List.append_cancel_left h)

theorem runes_ascii_cons {c : Nat} (hc : c < 0x80) (t : GoString) :
    runes (c :: t) = c :: runes t := by
  have hd : decodeRune (c :: t) = (c, 1) := by simp [decodeRune, hc]
  simp [runes, runesFuel, hd]

theorem runes_nil : runes [] = [] := rfl

/-- After a rune that is no separator, the closure of `Title` copies every
rune up to and including the next separator; without separators it copies
them all. -/
theorem foldl_titleStep_copy (U : UnicodeTables) (rs : List Nat) (prev : Nat)
    (out : GoString) (hprev : isSeparator U prev = false)
    (hrs : ∀ r ∈ rs, isSeparator U r = false) :
    (rs.foldl (titleStep U) (prev, out)).2 = out ++ (rs.map encodeRune).flatten := by
  induction rs generalizing prev out with
  | nil => simp
  | cons r rest ih =>
    have hr : isSeparator U r = false := hrs r (List.mem_cons_self _ _)
    have hrest : ∀ x ∈ rest, isSeparator U x = false :=
      fun x hx => hrs x (List.mem_cons_of_mem _ hx)
    rw [List.foldl_cons]
    have hstep : titleStep U (prev, out) r = (r, out ++ encodeRune r) := by
      simp [titleStep, hprev]
    rw [hstep, ih r _ hr hrest]
    simp

theorem asciiUpper_lt {c : Nat} (hc : c < 0x80) :
    (if 0x61 ≤ c ∧ c ≤ 0x7A then c - 0x20 else c) < 0x80 := by
  split_ifs <;> omega

theorem encodeRune_ascii {c : Nat} (hc : c < 0x80) : encodeRune c = [c] := by
  simp [encodeRune, hc]

/-- The function `strings.Title` on a string that starts with an ASCII
character, continues with valid UTF-8 and holds no separator: only the first
character changes, to its upper case. -/
theorem title_of_no_separator (U : UnicodeTables) (c : Nat) (t : GoString)
    (hc : c < 0x80) (hvalid : validUTF8 t = true)
    (hsep : ∀ r ∈ runes (c :: t), isSeparator U r = false) :
    Title U (c :: t) = (if 0x61 ≤ c ∧ c ≤ 0x7A then c - 0x20 else c) :: t := by
  have h20 : isSeparator U 0x20 = true := by simp [isSeparator]
  rw [runes_ascii_cons hc] at hsep
  have hcs : isSeparator U c = false := hsep c (List.mem_cons_self _ _)
  have hts : ∀ r ∈ runes t, isSeparator U r = false :=
    fun r hr => hsep r (List.mem_cons_of_mem _ hr)
  have hv : ((runes t).map encodeRune).flatten = t := by
    simpa [validUTF8] using hvalid
  have hstep : titleStep U (0x20, []) c
      = (c, [if 0x61 ≤ c ∧ c ≤ 0x7A then c - 0x20 else c]) := by
    have : unicodeToTitle U c = (if 0x61 ≤ c ∧ c ≤ 0x7A then c - 0x20 else c) := by
      simp [unicodeToTitle, hc]
    simp only [titleStep, h20, if_true, this, encodeRune_ascii (asciiUpper_lt hc),
      List.nil_append]
  unfold Title
  rw [runes_ascii_cons hc, List.foldl_cons, hstep, foldl_titleStep_copy U _ _ _ hcs hts, hv]
  rfl

/-- The function `capitalize` on a string that starts with an ASCII character:
only that character changes, to its upper case. -/
theorem capitalize_ascii_cons (U : UnicodeTables) (c : Nat) (t : GoString)
    (hc : c < 0x80) :
    capitalize U (c :: t) = (if 0x61 ≤ c ∧ c ≤ 0x7A then c - 0x20 else c) :: t := by
  have hup : ToUpper U [c] = [if 0x61 ≤ c ∧ c ≤ 0x7A then c - 0x20 else c] := by
    have : unicodeToUpper U c = (if 0x61 ≤ c ∧ c ≤ 0x7A then c - 0x20 else c) := by
      simp [unicodeToUpper, hc]
    simp only [ToUpper, Map, runes_ascii_cons hc, runes_nil, List.map_cons, List.map_nil,
      List.flatten_cons, List.flatten_nil, List.append_nil, this,
      encodeRune_ascii (asciiUpper_lt hc)]
  cases t with
  | nil => simp only [capitalize, hup]
  | cons b t2 => simp only [capitalize, encodeRune_ascii hc, hup, List.singleton_append]

/-- C10, amended: for a named field whose `Name` starts with an ASCII character,
is valid UTF-8 after it, and holds no character that `strings.Title` takes for
a word separator (so for every Go identifier that starts with an ASCII letter
or an underscore), `Want` returns `expected` followed by `Capitalize(Name)` and
`Got` returns `actual` followed by `Capitalize(Name)`. -/
theorem C10_wantName_gotName_named (U : UnicodeTables) (f : Field) (c : Nat)
    (t : GoString) (hNamed : f.IsNamed = true) (hName : f.Name = c :: t)
    (hc : c < 0x80) (hvalid : validUTF8 t = true)
    (hsep : ∀ r ∈ runes f.Name, isSeparator U r = false) :
    wantName U f = lit "expected" ++ capitalize U f.Name
      ∧ gotName U f = lit "actual" ++ capitalize U f.Name := by
  rw [hName] at hsep
  have h : Title U f.Name = capitalize U f.Name := by
    rw [hName, title_of_no_separator U c t hc hvalid hsep, capitalize_ascii_cons U c t hc]
  simp only [wantName, gotName, hNamed, if_true, h, and_self]

/-- C10 at the field named `Count`: `Want` gives `expectedCount` and `Got` gives
`actualCount`. -/
theorem C10_wantName_gotName_named_witness :
    wantName asciiTables countField = lit "expectedCount"
      ∧ gotName asciiTables countField = lit "actualCount" := by
  have h := C10_wantName_gotName_named asciiTables countField 0x43 (lit "ount")
    (by decide) (by decide) (by decide) (by decide) (by decide)
  rw [h.1, h.2]
  decide

/-! ### Decimal digits -/

theorem digitChar_toNat (k : Nat) (hk : k < 10) : (Nat.digitChar k).toNat = 0x30 + k := by
  interval_cases k <;> rfl

/-- Reading the digits `toDigitsCore` writes in front of `ds` gives the number
back. -/
theorem foldl_toDigitsCore (fuel n : Nat) (ds : List Char) (h : n < fuel) :
    ((Nat.toDigitsCore 10 fuel n ds).map Char.toNat).foldl
        (fun acc c => acc * 10 + (c - 0x30)) 0
      = (ds.map Char.toNat).foldl (fun acc c => acc * 10 + (c - 0x30)) n := by
  induction fuel generalizing n ds with
  | zero => omega
  | succ fuel ih =>
    have hd : (Nat.digitChar (n % 10)).toNat - 0x30 = n % 10 := by
      rw [digitChar_toNat _ (Nat.mod_lt _ (by decide))]
      omega
    simp only [Nat.toDigitsCore]
    split_ifs with h0
    · simp only [List.map_cons, List.foldl_cons, hd]
      congr 1
      omega
    · rw [ih (n / 10) _ (by omega)]
      simp only [List.map_cons, List.foldl_cons, hd]
      congr 1
      omega

theorem decimalValue_decimalDigits (n : Nat) : decimalValue (decimalDigits n) = n := by
  simp only [decimalValue, decimalDigits, Nat.toDigits]
  rw [foldl_toDigitsCore _ _ _ (Nat.lt_succ_self n)]
  rfl

theorem decimalDigits_injective {m n : Nat} (h : decimalDigits m = decimalDigits n) :
    m = n := by
  rw [← decimalValue_decimalDigits m, ← decimalValue_decimalDigits n, h]

/-- Every byte `toDigitsCore` writes is a digit. -/
theorem toDigitsCore_digits (fuel n : Nat) (ds : List Char)
    (hds : ∀ c ∈ ds, 0x30 ≤ c.toNat ∧ c.toNat ≤ 0x39) :
    ∀ c ∈ Nat.toDigitsCore 10 fuel n ds, 0x30 ≤ c.toNat ∧ c.toNat ≤ 0x39 := by
  induction fuel generalizing n ds with
  | zero => simpa [Nat.toDigitsCore] using hds
  | succ fuel ih =>
    have hd : 0x30 ≤ (Nat.digitChar (n % 10)).toNat ∧ (Nat.digitChar (n % 10)).toNat ≤ 0x39 := by
      rw [digitChar_toNat _ (Nat.mod_lt _ (by decide))]
      have := Nat.mod_lt n (show 0 < 10 by decide)
      omega
    have hcons : ∀ c ∈ Nat.digitChar (n % 10) :: ds, 0x30 ≤ c.toNat ∧ c.toNat ≤ 0x39 := by
      intro c hc
      rcases List.mem_cons.mp hc with h | h
      · rw [h]; exact hd
      · exact hds c h
    simp only [Nat.toDigitsCore]
    split_ifs with h0
    · exact hcons
    · exact ih _ _ hcons

theorem decimalDigits_digits (n : Nat) : ∀ b ∈ decimalDigits n, 0x30 ≤ b ∧ b ≤ 0x39 := by
  intro b hb
  simp only [decimalDigits, Nat.toDigits, List.mem_map] at hb
  obtain ⟨c, hc, rfl⟩ := hb
  exact toDigitsCore_digits _ _ [] (by simp) c hc

theorem formatInt_ofNat (n : Nat) : formatInt (n : Int) = decimalDigits n := rfl

theorem formatInt_negSucc (n : Nat) :
    formatInt (Int.negSucc n) = 0x2D :: decimalDigits (n + 1) := rfl

/-- The function `formatInt` is injective: different integers are written
differently. -/
theorem formatInt_injective {i j : Int} (h : formatInt i = formatInt j) : i = j := by
  cases i with
  | ofNat m =>
    cases j with
    | ofNat n =>
      have := decimalDigits_injective (m := m) (n := n) h
      rw [this]
    | negSucc n =>
      exfalso
      have h1 : formatInt (Int.ofNat m) = decimalDigits m := rfl
      rw [h1, formatInt_negSucc] at h
      have := decimalDigits_digits m 0x2D (by rw [h]; exact List.mem_cons_self _ _)
      omega
  | negSucc m =>
    cases j with
    | ofNat n =>
      exfalso
      have h1 : formatInt (Int.ofNat n) = decimalDigits n := rfl
      rw [h1, formatInt_negSucc] at h
      have := decimalDigits_digits n 0x2D (by rw [← h]; exact List.mem_cons_self _ _)
      omega
    | negSucc n =>
      rw [formatInt_negSucc, formatInt_negSucc] at h
      have := decimalDigits_injective (List.cons.inj h).2
      have hmn : m = n := by omega
      rw [hmn]

/-! ### C11, C12: the names of unnamed fields -/

theorem isNamed_eq_false_iff (f : Field) :
    f.IsNamed = false ↔ (f.Name = lit "" ∨ f.Name = lit "_") := by
  simp only [Field.IsNamed, Bool.and_eq_false_iff, bne_eq_false_iff_eq]

theorem isNamed_eq_true_iff (f : Field) :
    f.IsNamed = true ↔ (f.Name ≠ lit "" ∧ f.Name ≠ lit "_") := by
  simp only [Field.IsNamed, Bool.and_eq_true, bne_iff_ne, ne_eq]

/-- C11: for an unnamed field (`Name` empty or `_`) at `Index` `n ≥ 0`, `Want`
returns `expected` when `n = 0` and `expected` followed by the decimal digits of
`n` otherwise, and `Got` returns `actual` and `actual` followed by the digits in
the same two cases. -/
theorem C11_wantName_gotName_unnamed (U : UnicodeTables) (f : Field) (n : Nat)
    (hUnnamed : f.Name = lit "" ∨ f.Name = lit "_") (hIndex : f.Index = (n : Int)) :
    wantName U f = (if n = 0 then lit "expected" else lit "expected" ++ decimalDigits n)
      ∧ gotName U f = (if n = 0 then lit "actual" else lit "actual" ++ decimalDigits n) := by
  have hn : f.IsNamed = false := (isNamed_eq_false_iff f).mpr hUnnamed
  simp only [wantName, gotName, hn, hIndex, Bool.false_eq_true, if_false, formatInt_ofNat,
    Int.natCast_eq_zero, and_self]

/-- C11 at unnamed fields of index 0, 2 and 10: `expected` and `actual`,
`expected2` and `actual2`, `expected10` and `actual10`. -/
theorem C11_wantName_gotName_unnamed_witness :
    (wantName asciiTables (unnamedField 0) = lit "expected"
        ∧ gotName asciiTables (unnamedField 0) = lit "actual")
      ∧ (wantName asciiTables (unnamedField 2) = lit "expected2"
        ∧ gotName asciiTables (unnamedField 2) = lit "actual2")
      ∧ (wantName asciiTables (unnamedField 10) = lit "expected10"
        ∧ gotName asciiTables (unnamedField 10) = lit "actual10") := by
  have h0 := C11_wantName_gotName_unnamed asciiTables (unnamedField 0) 0 (Or.inl rfl) rfl
  have h2 := C11_wantName_gotName_unnamed asciiTables (unnamedField 2) 2 (Or.inl rfl) rfl
  have h10 := C11_wantName_gotName_unnamed asciiTables (unnamedField 10) 10 (Or.inl rfl) rfl
  rw [h0.1, h0.2, h2.1, h2.2, h10.1, h10.2]
  decide

/-- C12: `Param` returns the declared `Name` of a named field; of an unnamed
field it returns `in` followed by the decimal text of `Index`, which is the
digits of `Index` when it is not negative (and a minus sign and the digits of
its absolute value when it is). -/
theorem C12_parameterName (f : Field) :
    ((f.Name ≠ lit "" ∧ f.Name ≠ lit "_") → parameterName f = f.Name)
      ∧ ((f.Name = lit "" ∨ f.Name = lit "_") →
          (∀ n : Nat, f.Index = (n : Int) → parameterName f = lit "in" ++ decimalDigits n)
            ∧ (∀ n : Nat, f.Index = -((n : Int) + 1) →
                parameterName f = lit "in" ++ lit "-" ++ decimalDigits (n + 1))) := by
  constructor
  · intro h
    simp only [parameterName, (isNamed_eq_true_iff f).mpr h, if_true]
  · intro h
    have hn : f.IsNamed = false := (isNamed_eq_false_iff f).mpr h
    constructor
    · intro n hi
      simp only [parameterName, hn, hi, Bool.false_eq_true, if_false, formatInt_ofNat]
    · intro n hi
      have hneg : f.Index = Int.negSucc n := by
        rw [hi, Int.negSucc_eq]
      simp only [parameterName, hn, hneg, Bool.false_eq_true, if_false, formatInt_negSucc]
      have : lit "-" = [0x2D] := by decide
      rw [this]
      simp

/-- C12 at an unnamed field of index 2, which gives `in2`, and at the field
named `Count`, which gives `Count`. -/
theorem C12_parameterName_witness :
    parameterName (unnamedField 2) = lit "in2"
      ∧ parameterName countField = lit "Count" := by
  constructor
  · rw [((C12_parameterName (unnamedField 2)).2 (Or.inl rfl)).1 2 rfl]
    decide
  · rw [(C12_parameterName countField).1 (by decide)]
    rfl

/-! ### Decoding an encoded rune -/

/-- The decoder returns Unicode scalar values only: no surrogate and nothing
above U+10FFFF. -/
theorem decodeRune_valid (s : GoString) :
    (decodeRune s).1 < 0xD800 ∨ (0xE000 ≤ (decodeRune s).1 ∧ (decodeRune s).1 ≤ 0x10FFFF) := by
  have hinv : invalidRune.1 < 0xD800 ∨ (0xE000 ≤ invalidRune.1 ∧ invalidRune.1 ≤ 0x10FFFF) := by
    decide
  rcases s with _ | ⟨s0, t⟩
  · decide
  simp only [decodeRune]
  by_cases h1 : s0 < 0x80
  · simp only [h1, if_true]
    omega
  simp only [h1, if_false]
  by_cases h2 : s0 < 0xC2 ∨ 0xF4 < s0
  · simp only [h2, if_true]
    exact hinv
  simp only [h2, if_false]
  rcases t with _ | ⟨s1, t1⟩
  · exact hinv
  simp only []
  by_cases h3 : s1 < acceptLo s0 ∨ acceptHi s0 < s1
  · simp only [h3, if_true]
    exact hinv
  simp only [h3, if_false]
  by_cases h4 : seqSize s0 ≤ 2
  · simp only [h4, if_true]
    omega
  simp only [h4, if_false]
  rcases t1 with _ | ⟨s2, t2⟩
  · exact hinv
  simp only []
  by_cases h5 : s2 < 0x80 ∨ 0xBF < s2
  · simp only [h5, if_true]
    exact hinv
  simp only [h5, if_false]
  have hlo : s0 = 0xE0 → 0xA0 ≤ s1 := by
    intro h
    simp only [acceptLo, h, if_true] at h3
    omega
  have hlo4 : s0 = 0xF0 → 0x90 ≤ s1 := by
    intro h
    simp only [acceptLo, h] at h3
    norm_num at h3
    omega
  have hhi : s0 = 0xED → s1 ≤ 0x9F := by
    intro h
    simp only [acceptHi, h, if_true] at h3
    omega
  have hhi4 : s0 = 0xF4 → s1 ≤ 0x8F := by
    intro h
    simp only [acceptHi, h] at h3
    norm_num at h3
    omega
  have hs1 : 0x80 ≤ s1 ∧ s1 ≤ 0xBF := by
    unfold acceptLo acceptHi at h3
    split_ifs at h3 <;> omega
  by_cases h6 : seqSize s0 ≤ 3
  · have hs0 : 0xE0 ≤ s0 ∧ s0 ≤ 0xEF := by
      unfold seqSize at h4 h6
      split_ifs at h4 h6 <;> omega
    simp only [h6, if_true]
    omega
  simp only [h6, if_false]
  have hs0 : 0xF0 ≤ s0 ∧ s0 ≤ 0xF4 := by
    unfold seqSize at h6
    split_ifs at h6 <;> omega
  rcases t2 with _ | ⟨s3, t3⟩
  · exact hinv
  simp only []
  by_cases h7 : s3 < 0x80 ∨ 0xBF < s3
  · simp only [h7, if_true]
    exact hinv
  simp only [h7, if_false]
  omega

theorem runesFuel_nil (fuel : Nat) : runesFuel fuel [] = [] := by
  cases fuel <;> rfl

/-- Decoding the encoding of a scalar value gives the value back, with the
length of the encoding as width. -/
theorem decodeRune_encodeRune (r : Nat) (rest : GoString)
    (hv : r < 0xD800 ∨ (0xE000 ≤ r ∧ r ≤ 0x10FFFF)) :
    decodeRune (encodeRune r ++ rest) = (r, (encodeRune r).length) := by
  unfold encodeRune
  split_ifs with h1 h2 h3 h4
  · simp [decodeRune, h1]
  · have a1 : ¬ (0xC0 + r / 64 < 0x80) := by omega
    have a2 : ¬ (0xC0 + r / 64 < 0xC2 ∨ 0xF4 < 0xC0 + r / 64) := by omega
    have a3 : acceptLo (0xC0 + r / 64) = 0x80 := by
      unfold acceptLo
      split_ifs <;> omega
    have a4 : acceptHi (0xC0 + r / 64) = 0xBF := by
      unfold acceptHi
      split_ifs <;> omega
    have a5 : ¬ (0x80 + r % 64 < 0x80 ∨ 0xBF < 0x80 + r % 64) := by omega
    have a6 : seqSize (0xC0 + r / 64) ≤ 2 := by
      unfold seqSize
      split_ifs <;> omega
    simp only [List.cons_append, List.nil_append, decodeRune, a1, a2, a3, a4, a5, a6, if_false,
      if_true, List.length_cons, List.length_nil, Prod.mk.injEq, and_true]
    omega
  · omega
  · have a1 : ¬ (0xE0 + r / 4096 < 0x80) := by omega
    have a2 : ¬ (0xE0 + r / 4096 < 0xC2 ∨ 0xF4 < 0xE0 + r / 4096) := by omega
    have a5 : ¬ (0x80 + r / 64 % 64 < acceptLo (0xE0 + r / 4096)
        ∨ acceptHi (0xE0 + r / 4096) < 0x80 + r / 64 % 64) := by
      unfold acceptLo acceptHi
      split_ifs <;> omega
    have a6 : ¬ (seqSize (0xE0 + r / 4096) ≤ 2) := by
      unfold seqSize
      split_ifs <;> omega
    have a7 : ¬ (0x80 + r % 64 < 0x80 ∨ 0xBF < 0x80 + r % 64) := by omega
    have a8 : seqSize (0xE0 + r / 4096) ≤ 3 := by
      unfold seqSize
      split_ifs <;> omega
    simp only [List.cons_append, List.nil_append, decodeRune, a1, a2, a5, a6, a7, a8, if_false,
      if_true, List.length_cons, List.length_nil, Prod.mk.injEq, and_true]
    omega
  · have a1 : ¬ (0xF0 + r / 262144 < 0x80) := by omega
    have a2 : ¬ (0xF0 + r / 262144 < 0xC2 ∨ 0xF4 < 0xF0 + r / 262144) := by omega
    have a5 : ¬ (0x80 + r / 4096 % 64 < acceptLo (0xF0 + r / 262144)
        ∨ acceptHi (0xF0 + r / 262144) < 0x80 + r / 4096 % 64) := by
      unfold acceptLo acceptHi
      split_ifs <;> omega
    have a6 : ¬ (seqSize (0xF0 + r / 262144) ≤ 2) := by
      unfold seqSize
      split_ifs <;> omega
    have a7 : ¬ (0x80 + r / 64 % 64 < 0x80 ∨ 0xBF < 0x80 + r / 64 % 64) := by omega
    have a8 : ¬ (seqSize (0xF0 + r / 262144) ≤ 3) := by
      unfold seqSize
      split_ifs <;> omega
    have a9 : ¬ (0x80 + r % 64 < 0x80 ∨ 0xBF < 0x80 + r % 64) := by omega
    simp only [List.cons_append, List.nil_append, decodeRune, a1, a2, a5, a6, a7, a8, a9,
      if_false, if_true, List.length_cons, List.length_nil, Prod.mk.injEq, and_true]
    omega

/-- The string `string(r)` of a rune the decoder returned holds that one
rune. -/
theorem runes_encodeRune (r : Nat) (hv : r < 0xD800 ∨ (0xE000 ≤ r ∧ r ≤ 0x10FFFF)) :
    runes (encodeRune r) = [r] := by
  obtain ⟨h, t, e, _⟩ := encodeRune_shape r
  have hd := decodeRune_encodeRune r [] hv
  rw [List.append_nil] at hd
  unfold runes
  rw [e] at hd ⊢
  simp only [List.length_cons, runesFuel, hd, List.drop_succ_cons, List.drop_length,
    runesFuel_nil]

/-! ### C13: `receiverName` -/

/-- The method `ShortName` returns the encoding of the lower-cased first rune of
`Type.Value`. -/
theorem shortName_eq (U : UnicodeTables) (f : Field) (h : f.Type_.Value ≠ []) :
    f.ShortName U = some (encodeRune (unicodeToLower U (decodeRune f.Type_.Value).1)) := by
  simp only [Field.ShortName, firstRune_of_ne_nil h, ToLower, Map,
    runes_encodeRune _ (decodeRune_valid _), List.map_cons, List.map_nil, List.flatten_cons,
    List.flatten_nil, List.append_nil]

theorem avoidConflict_ne (n : GoString) :
    avoidConflict n ≠ lit "name" ∧ avoidConflict n ≠ lit "t" := by
  unfold avoidConflict
  split_ifs with h1 h2
  · decide
  · decide
  · exact ⟨h1, h2⟩

/-- C13: for a receiver that is named or has a non-empty `Type.Value`, the
`Receiver` helper takes as candidate the declared `Name` when the receiver is
named and `ShortName`, the lower-cased first character of `Type.Value`,
otherwise; it returns `n` for the candidate `name`, `tr` for the candidate `t`
and the candidate itself otherwise; so it never returns `name` nor `t`. -/
theorem C13_receiverName (U : UnicodeTables) (f : Receiver)
    (hValue : (f.Name = lit "" ∨ f.Name = lit "_") → f.Type_.Value ≠ []) :
    ∃ cand : GoString,
      ((f.Name ≠ lit "" ∧ f.Name ≠ lit "_") → cand = f.Name)
        ∧ ((f.Name = lit "" ∨ f.Name = lit "_") →
            f.toField.ShortName U = some cand
              ∧ ∃ r, firstRune f.Type_.Value = some r
                  ∧ cand = encodeRune (unicodeToLower U r))
        ∧ receiverName U f
            = some (if cand = lit "name" then lit "n"
                    else if cand = lit "t" then lit "tr" else cand)
        ∧ receiverName U f ≠ some (lit "name")
        ∧ receiverName U f ≠ some (lit "t") := by
  have hfinish : ∀ cand : GoString, receiverName U f = some (avoidConflict cand) →
      receiverName U f
            = some (if cand = lit "name" then lit "n"
                    else if cand = lit "t" then lit "tr" else cand)
        ∧ receiverName U f ≠ some (lit "name")
        ∧ receiverName U f ≠ some (lit "t") := by
    intro cand h
    refine ⟨h, ?_, ?_⟩
    · rw [h]
      intro he
      exact (avoidConflict_ne cand).1 (Option.some.inj he)
    · rw [h]
      intro he
      exact (avoidConflict_ne cand).2 (Option.some.inj he)
  cases hn : f.toField.IsNamed with
  | true =>
    have hnamed := (isNamed_eq_true_iff f.toField).mp hn
    refine ⟨f.Name, fun _ => rfl, ?_, hfinish _ ?_⟩
    · intro h
      rcases h with h | h
      · exact absurd h hnamed.1
      · exact absurd h hnamed.2
    · simp only [receiverName, hn, if_true]
  | false =>
    have hun := (isNamed_eq_false_iff f.toField).mp hn
    have hv := hValue hun
    have hs := shortName_eq U f.toField hv
    refine ⟨_, ?_, fun _ => ⟨hs, _, firstRune_of_ne_nil hv, rfl⟩, hfinish _ ?_⟩
    · intro h
      rcases hun with h' | h'
      · exact absurd h' h.1
      · exact absurd h' h.2
    · simp only [receiverName, hn, hs, Bool.false_eq_true, if_false]

/-- C13 at four receivers: the unnamed receiver of type `Tree` gets `tr` (its
short name is `t`), the unnamed receiver of type `repo` gets `r`, the receiver
named `name` gets `n`, and the receiver named `srv` keeps its name. -/
theorem C13_receiverName_witness :
    receiverName asciiTables (receiverOf (lit "") (lit "Tree")) = some (lit "tr")
      ∧ receiverName asciiTables (receiverOf (lit "_") (lit "repo")) = some (lit "r")
      ∧ receiverName asciiTables (receiverOf (lit "name") (lit "Tree")) = some (lit "n")
      ∧ receiverName asciiTables (receiverOf (lit "srv") (lit "")) = some (lit "srv") := by
  obtain ⟨c1, _, h1, e1, _⟩ := C13_receiverName asciiTables (receiverOf (lit "") (lit "Tree"))
    (fun _ => by decide)
  obtain ⟨c4, h4, _, e4, _⟩ := C13_receiverName asciiTables (receiverOf (lit "srv") (lit ""))
    (fun h => by
      exfalso
      revert h
      decide)
  have hc1 : c1 = lit "t" := by
    have := (h1 (Or.inl rfl)).1
    have hs : (receiverOf (lit "") (lit "Tree")).toField.ShortName asciiTables
        = some (lit "t") := by decide
    rw [hs] at this
    exact (Option.some.inj this).symm
  have hc4 : c4 = lit "srv" := h4 (by decide)
  refine ⟨?_, by decide, by decide, ?_⟩
  · rw [e1, hc1]
    decide
  · rw [e4, hc4]
    decide

/-! ### C14: `capitalize` -/

/-- What follows two encodings that begin alike has the same length. -/
theorem encodeRune_append_length (a b : Nat) (xs ys : GoString)
    (h : encodeRune a ++ xs = encodeRune b ++ ys) : xs.length = ys.length := by
  obtain ⟨h1, t1, e1, l1⟩ := encodeRune_shape a
  obtain ⟨h2, t2, e2, l2⟩ := encodeRune_shape b
  rw [e1, e2] at h
  simp only [List.cons_append, List.cons.injEq] at h
  obtain ⟨hh, ht⟩ := h
  have hl := congrArg List.length ht
  simp only [List.length_append] at hl
  rw [hh] at l1
  omega

/-- On a string that is empty or starts with an ASCII character `capitalize`
does what its specification says. -/
theorem capitalize_eq_upperFirst_of_ascii (U : UnicodeTables) (s : GoString)
    (h : ∀ b t, s = b :: t → b < 0x80) : capitalize U s = upperFirst U s := by
  cases s with
  | nil =>
    simp [capitalize, upperFirst, ToUpper, Map, runes_nil]
  | cons b t =>
    have hb : b < 0x80 := h b t rfl
    have hd : decodeRune (b :: t) = (b, 1) := by simp [decodeRune, hb]
    have hu : unicodeToUpper U b = (if 0x61 ≤ b ∧ b ≤ 0x7A then b - 0x20 else b) := by
      simp [unicodeToUpper, hb]
    rw [capitalize_ascii_cons U b t hb]
    simp only [upperFirst, hd, hu, encodeRune_ascii (asciiUpper_lt hb), List.drop_succ_cons,
      List.drop_zero, List.singleton_append]

theorem capitalize_accent_single (U : UnicodeTables) :
    capitalize U [0xC3, 0xA9] = encodeRune (U.toUpper 0xC3) ++ [0xA9] := by
  have he : encodeRune 0xC3 = [0xC3, 0x83] := by decide
  have hr : runes [0xC3, 0x83] = [0xC3] := by decide
  have hu : unicodeToUpper U 0xC3 = U.toUpper 0xC3 := by simp [unicodeToUpper]
  simp [capitalize, ToUpper, Map, he, hr, hu]

/-- C14 at the strings `éa` (bytes `C3 A9 61`) and `é` (bytes `C3 A9`): the
first character is `é` (U+00E9), two bytes wide; `capitalize` upper-cases the
rune whose value is the first byte, `C3`, and keeps the second byte of `é`, so
under no Unicode tables is the result the string with its first character
upper-cased, and the single character `é` is not returned upper-cased.  With
tables that leave U+00C3 alone, as Unicode does, the results are the bytes
`C3 83 A9 61` and `C3 83 A9`. -/
theorem C14_capitalize_non_ascii :
    decodeRune [0xC3, 0xA9, 0x61] = (0xE9, 2)
      ∧ (¬ ∃ U : UnicodeTables,
          capitalize U [0xC3, 0xA9, 0x61] = upperFirst U [0xC3, 0xA9, 0x61])
      ∧ (¬ ∃ U : UnicodeTables, capitalize U [0xC3, 0xA9] = ToUpper U [0xC3, 0xA9])
      ∧ capitalize asciiTables [0xC3, 0xA9, 0x61] = [0xC3, 0x83, 0xA9, 0x61]
      ∧ capitalize asciiTables [0xC3, 0xA9] = [0xC3, 0x83, 0xA9] := by
  have hd : decodeRune [0xC3, 0xA9, 0x61] = (0xE9, 2) := by decide
  refine ⟨hd, ?_, ?_, by decide, by decide⟩
  · rintro ⟨U, h⟩
    rw [capitalize_accent] at h
    simp only [upperFirst, hd, List.drop_succ_cons, List.drop_zero] at h
    have := encodeRune_append_length _ _ _ _ h
    simp at this
  · rintro ⟨U, h⟩
    have hr : runes [0xC3, 0xA9] = [0xE9] := by decide
    rw [capitalize_accent_single] at h
    simp only [ToUpper, Map, hr, List.map_cons, List.map_nil, List.flatten_cons,
      List.flatten_nil] at h
    have := encodeRune_append_length _ _ _ _ h
    simp at this

/-! ### C15, C16: the package-qualification tests -/

theorem lit_star : lit "*" = [0x2A] := by decide

theorem lit_brackets : lit "[]" = [0x5B, 0x5D] := by decide

theorem renderIsBasicType_eq (t : GoString) : renderIsBasicType t = isBasicType t := rfl

/-- No basic type text begins with `*` or `[`. -/
theorem isBasicType_cons_false (b : Nat) (t : GoString) (hb : b = 0x2A ∨ b = 0x5B) :
    isBasicType (b :: t) = false := by
  have hnames : ∀ n ∈ basicTypeNames, n.head? ≠ some 0x2A ∧ n.head? ≠ some 0x5B := by decide
  have hmem : (b :: t) ∉ basicTypeNames := by
    intro hm
    have := hnames _ hm
    rcases hb with h | h <;> simp [h] at this
  have hmap : lit "map[string]" = 0x6D :: lit "ap[string]" := by decide
  have hpre : HasPrefix (b :: t) (lit "map[string]") = false := by
    rw [hmap]
    simp only [HasPrefix, List.isPrefixOf]
    rcases hb with h | h <;> simp [h]
  simp [isBasicType, hmem, hpre]

/-- The literal text of a pointer or variadic type is no basic type. -/
theorem isBasicType_string_of_decorated (e : Expression)
    (h : e.IsStar = true ∨ e.IsVariadic = true) : isBasicType e.String = false := by
  rcases e with ⟨v, star, variadic, w, u⟩
  cases star <;> cases variadic <;>
    simp [Expression.String, lit_star, lit_brackets, isBasicType_cons_false] at h ⊢

theorem string_of_plain (e : Expression) (h1 : e.IsStar = false) (h2 : e.IsVariadic = false) :
    e.String = e.Value := by
  simp [Expression.String, h1, h2]

/-- The two tests agree except on a pointer or variadic type whose `Value` is a
basic type without a dot. -/
theorem addpackage_eq_hasNoPackage_iff (f : Field) :
    addpackage f.Type_ = f.HasNoPackage
      ↔ ¬ ((f.Type_.IsStar = true ∨ f.Type_.IsVariadic = true)
            ∧ isBasicType f.Type_.Value = true
            ∧ Contains f.Type_.Value (lit ".") = false) := by
  by_cases hd : f.Type_.IsStar = true ∨ f.Type_.IsVariadic = true
  · have hs := isBasicType_string_of_decorated f.Type_ hd
    simp only [addpackage, Field.HasNoPackage, renderIsBasicType_eq, hs, hd, true_and]
    cases isBasicType f.Type_.Value <;> cases Contains f.Type_.Value (lit ".") <;> simp
  · have h1 : f.Type_.IsStar = false := by
      cases h : f.Type_.IsStar
      · rfl
      · exact absurd (Or.inl h) hd
    have h2 : f.Type_.IsVariadic = false := by
      cases h : f.Type_.IsVariadic
      · rfl
      · exact absurd (Or.inr h) hd
    simp only [addpackage, Field.HasNoPackage, renderIsBasicType_eq, string_of_plain _ h1 h2,
      hd, false_and, not_false_eq_true]

/-- C15 at a field of type `*int`: `AddPackage` tests the basic type on `Value`,
which is `int`, and answers false; `HasNoPackage()` tests it on the literal text
`*int`, which is no basic type, and answers true. -/
theorem C15_addpackage_hasNoPackage_pointer :
    pointerIntField.Type_.String = lit "*int"
      ∧ addpackage pointerIntField.Type_ = false
      ∧ pointerIntField.HasNoPackage = true := by
  decide

/-- C16, the claim as stated fails: the literal type text of a field of type
`int` is a basic type, and `HasNoPackage()` is false; the type `Tree` is neither
basic nor qualified, and `HasNoPackage()` is true. -/
theorem C16_hasNoPackage_counterexample :
    (isBasicType intField.Type_.String = true ∧ intField.HasNoPackage = false)
      ∧ (isBasicType treeField.Type_.String = false
          ∧ Contains treeField.Type_.Value (lit ".") = false
          ∧ treeField.HasNoPackage = true) := by
  decide

/-- C16, amended: except for a pointer or variadic type whose `Value` is a
basic type without a dot, `HasNoPackage()` is true exactly when the type text is
no basic type and `Value` is not package-qualified (contains no `.`), and false
when the type text is basic or `Value` is qualified; here the type text can be
read as the literal text `String()` or as `Value`. -/
theorem C16_hasNoPackage (f : Field)
    (h : ¬ ((f.Type_.IsStar = true ∨ f.Type_.IsVariadic = true)
            ∧ isBasicType f.Type_.Value = true
            ∧ Contains f.Type_.Value (lit ".") = false)) :
    (f.HasNoPackage = true
        ↔ (isBasicType f.Type_.String = false ∧ Contains f.Type_.Value (lit ".") = false))
      ∧ (f.HasNoPackage = true
        ↔ (isBasicType f.Type_.Value = false ∧ Contains f.Type_.Value (lit ".") = false))
      ∧ (f.HasNoPackage = false
        ↔ (isBasicType f.Type_.String = true ∨ Contains f.Type_.Value (lit ".") = true)) := by
  have hagree := (addpackage_eq_hasNoPackage_iff f).mpr h
  refine ⟨?_, ?_, ?_⟩
  · simp only [Field.HasNoPackage]
    cases isBasicType f.Type_.String <;> cases Contains f.Type_.Value (lit ".") <;> simp
  · rw [← hagree]
    simp only [addpackage, renderIsBasicType_eq]
    cases isBasicType f.Type_.Value <;> cases Contains f.Type_.Value (lit ".") <;> simp
  · simp only [Field.HasNoPackage]
    cases isBasicType f.Type_.String <;> cases Contains f.Type_.Value (lit ".") <;> simp

/-- C16 at the fields of type `Tree` and of type `int`: the first has no
package and is not basic, the second is basic. -/
theorem C16_hasNoPackage_witness :
    treeField.HasNoPackage = true ∧ intField.HasNoPackage = false := by
  have ht := (C16_hasNoPackage treeField (by decide)).2.1
  have hi := (C16_hasNoPackage intField (by decide)).2.2
  exact ⟨ht.mpr (by decide), hi.mpr (by decide)⟩

/-! ### C17: `Expression.String` -/

/-- C17: `String()` is `[]` (when variadic), then `*` (when a pointer), then
`Value`; and two expressions whose `Value` begins neither with `*` nor with `[]`
and whose `String()` agree have the same `Value`, `IsStar` and `IsVariadic`. -/
theorem C17_string_lossless (e1 e2 : Expression) :
    e1.String
        = (if e1.IsVariadic then lit "[]" else lit "")
          ++ (if e1.IsStar then lit "*" else lit "") ++ e1.Value
      ∧ (undecorated e1.Value = true → undecorated e2.Value = true →
          e1.String = e2.String →
          e1.Value = e2.Value ∧ e1.IsStar = e2.IsStar ∧ e1.IsVariadic = e2.IsVariadic) := by
  have hempty : lit "" = [] := by decide
  constructor
  · cases hv : e1.IsVariadic <;> cases hs : e1.IsStar <;>
      simp [Expression.String, hempty, hv, hs]
  · rcases e1 with ⟨v1, s1, d1, w1, u1⟩
    rcases e2 with ⟨v2, s2, d2, w2, u2⟩
    simp only [undecorated, HasPrefix, lit_star, lit_brackets, Bool.and_eq_true,
      Bool.not_eq_true', Expression.String]
    rintro ⟨a1, b1⟩ ⟨a2, b2⟩ h
    cases s1 <;> cases d1 <;> cases s2 <;> cases d2 <;>
      simp only [if_true, if_false, Bool.false_eq_true, List.cons_append, List.nil_append,
        and_true, reduceCtorEq, and_false, and_self] at h ⊢ <;>
      first
        | exact h
        | (subst h; simp [List.isPrefixOf] at a1 b1 a2 b2)
        | (simp only [List.cons.injEq, true_and] at h; subst h;
           simp [List.isPrefixOf] at a1 b1 a2 b2)
        | (simp only [List.cons.injEq, true_and] at h; exact h)
        | (simp only [List.cons.injEq] at h; exact absurd h.1 (by decide))

/-- C17 at the type of a variadic parameter of pointers to `Tree`: `String()` is
`[]*Tree`, and an expression with the same `String()` and the undecorated
`Value` `Tree` has the same flags. -/
theorem C17_string_lossless_witness :
    variadicPointerTree.String = lit "[]*Tree"
      ∧ undecorated variadicPointerTree.Value = true
      ∧ (variadicPointerTree.Value = lit "Tree" ∧ variadicPointerTree.IsStar = true
          ∧ variadicPointerTree.IsVariadic = true) := by
  have h := (C17_string_lossless variadicPointerTree
    ⟨lit "Tree", true, true, true, lit ""⟩).2 (by decide) (by decide) (by decide)
  exact ⟨by decide, by decide, h.1, h.2.1, h.2.2⟩

/-! ### C18: `parameterName` on a parameter list -/

/-- C18, the claim as stated fails: the parameters of
`func F(in1 int, _ string)` have distinct indices 0 and 1 and a single declared
name, and `Param` returns `in1` for both. -/
theorem C18_parameterName_counterexample :
    (collidingParameters.map Field.Index).Nodup
      ∧ ((collidingParameters.filter Field.IsNamed).map Field.Name).Nodup
      ∧ collidingParameters.map parameterName = [lit "in1", lit "in1"]
      ∧ ¬ (collidingParameters.map parameterName).Nodup := by
  decide

/-- C18, amended: for a parameter list whose fields have pairwise distinct
`Index` values, whose named fields have pairwise distinct declared names, and
in which no declared name is the generated name `in` + `Index` of an unnamed
field of the list, `Param` returns pairwise distinct identifiers. -/
theorem C18_parameterName_distinct (l : List Field)
    (hIndex : (l.map Field.Index).Nodup)
    (hNames : ((l.filter Field.IsNamed).map Field.Name).Nodup)
    (hFresh : ∀ f ∈ l, f.IsNamed = true → ∀ g ∈ l, g.IsNamed = false →
      f.Name ≠ lit "in" ++ formatInt g.Index) :
    (l.map parameterName).Nodup := by
  apply List.Nodup.map_on _ (List.Nodup.of_map _ hIndex)
  intro x hx y hy hxy
  cases hnx : x.IsNamed <;> cases hny : y.IsNamed
  · simp only [parameterName, hnx, hny, Bool.false_eq_true, if_false,
      List.append_cancel_left_eq] at hxy
    exact List.inj_on_of_nodup_map hIndex hx hy (formatInt_injective hxy)
  · simp only [parameterName, hnx, hny, Bool.false_eq_true, if_false, if_true] at hxy
    exact absurd hxy.symm (hFresh y hy hny x hx hnx)
  · simp only [parameterName, hnx, hny, Bool.false_eq_true, if_false, if_true] at hxy
    exact absurd hxy (hFresh x hx hnx y hy hny)
  · simp only [parameterName, hnx, hny, if_true] at hxy
    exact List.inj_on_of_nodup_map hNames (List.mem_filter.mpr ⟨hx, hnx⟩)
      (List.mem_filter.mpr ⟨hy, hny⟩) hxy

/-- C18 at the parameters of `func F(n int, _ string, w io.Writer)`: the
identifiers are `n`, `in1` and `w`. -/
theorem C18_parameterName_distinct_witness :
    plainParameters.map parameterName = [lit "n", lit "in1", lit "w"]
      ∧ (plainParameters.map parameterName).Nodup :=
  ⟨by decide, C18_parameterName_distinct plainParameters (by decide) (by decide) (by decide)⟩

/-! ### C20: the index expressions of `TestName` -/

/-- C20: for a function with a non-empty `Name` whose receiver, if it has one,
has a non-empty `Type.Value`, the index expressions of `TestName()` are in range
and a name is returned; `TestName()` panics only when `Name` is empty, or when
`Name` does not begin with `Test` and the receiver has an empty `Type.Value`;
exactly, it panics when `Name` does not begin with `Test` and either there is no
receiver and `Name` is empty, or the receiver has an empty `Type.Value`. -/
theorem C20_testName_in_range (U : UnicodeTables) (f : Function) :
    ((f.Name ≠ [] ∧ ∀ r, f.Receiver = some r → r.Type_.Value ≠ []) →
        (∀ r, f.Receiver = some r → ∃ c, firstRune r.Type_.Value = some c)
          ∧ (∃ c, firstRune f.Name = some c)
          ∧ ∃ n, f.TestName U = some n)
      ∧ (f.TestName U = none →
          f.Name = []
            ∨ (HasPrefix f.Name (lit "Test") = false
                ∧ ∃ r, f.Receiver = some r ∧ r.Type_.Value = []))
      ∧ (f.TestName U = none ↔
          HasPrefix f.Name (lit "Test") = false
            ∧ ((f.Receiver = none ∧ f.Name = [])
                ∨ ∃ r, f.Receiver = some r ∧ r.Type_.Value = [])) := by
  have hiff : f.TestName U = none ↔
      HasPrefix f.Name (lit "Test") = false
        ∧ ((f.Receiver = none ∧ f.Name = [])
            ∨ ∃ r, f.Receiver = some r ∧ r.Type_.Value = []) := by
    unfold Function.TestName
    cases hp : HasPrefix f.Name (lit "Test")
    · cases hr : f.Receiver with
      | none =>
        cases hn : f.Name with
        | nil => simp [firstRune]
        | cons b t =>
          simp only [firstRune, Bool.false_eq_true, if_false]
          split_ifs <;> simp
      | some r =>
        cases hv : r.Type_.Value with
        | nil => simp [firstRune, hv]
        | cons b t => simp [firstRune, hv]
    · simp
  refine ⟨?_, ?_, hiff⟩
  · rintro ⟨hName, hRecv⟩
    exact ⟨fun r hr => ⟨_, firstRune_of_ne_nil (hRecv r hr)⟩, ⟨_, firstRune_of_ne_nil hName⟩,
      ⟨_, testName_eq U f hName hRecv⟩⟩
  · intro h
    obtain ⟨hp, h2⟩ := hiff.mp h
    rcases h2 with ⟨_, hn⟩ | ⟨r, hr, hv⟩
    · exact Or.inl hn
    · exact Or.inr ⟨hp, r, hr, hv⟩

/-- C20 at the method `Save` on the receiver type `repo`, for which a name is
returned, and at the function with the empty name, for which none is. -/
theorem C20_testName_in_range_witness :
    (∃ n, (methodOn (lit "repo") (lit "Save")).TestName asciiTables = some n)
      ∧ (freeFunction (lit "")).TestName asciiTables = none := by
  constructor
  · refine ((C20_testName_in_range asciiTables (methodOn (lit "repo") (lit "Save"))).1
      ⟨by decide, ?_⟩).2.2
    intro r hr
    simp only [methodOn, Option.some.injEq] at hr
    rw [← hr]
    decide
  · exact (C20_testName_in_range asciiTables (freeFunction (lit ""))).2.2.mpr
      ⟨by decide, Or.inl ⟨rfl, rfl⟩⟩

/-! ### C19: reloading the registry -/

theorem lookupTemplate_eq_none {tmpls : Registry} {name : GoString}
    (h : ∀ p ∈ tmpls, p.1 ≠ name) : lookupTemplate tmpls name = none := by
  simp only [lookupTemplate, Option.map_eq_none', List.find?_eq_none, decide_eq_true_eq]
  exact h

/-- Adding a tree introduces no name but its own. -/
theorem addParseTree_names (E : TemplateEnv) (N : GoString → Prop) (tmpls : Registry)
    (name tree : GoString) (ht : ∀ p ∈ tmpls, N p.1) (hn : N name) :
    ∀ p ∈ AddParseTree E tmpls name tree, N p.1 := by
  intro p hp
  unfold AddParseTree at hp
  split_ifs at hp
  · exact ht p hp
  · rcases List.mem_cons.mp hp with h | h
    · rw [h]
      exact hn
    · exact ht p (List.mem_filter.mp h).1

theorem foldl_addParseTree_names (E : TemplateEnv) (N : GoString → Prop)
    (trees : List (GoString × GoString)) (tmpls : Registry)
    (ht : ∀ p ∈ tmpls, N p.1) (hn : ∀ q ∈ trees, N q.1) :
    ∀ p ∈ trees.foldl (fun t q => AddParseTree E t q.1 q.2) tmpls, N p.1 := by
  induction trees generalizing tmpls with
  | nil => simpa using ht
  | cons q rest ih =>
    rw [List.foldl_cons]
    exact ih _ (addParseTree_names E N tmpls q.1 q.2 ht (hn q (List.mem_cons_self _ _)))
      (fun x hx => hn x (List.mem_cons_of_mem _ hx))

/-- Parsing a text introduces no name but those of the trees the text
defines. -/
theorem parse_names (E : TemplateEnv) (N : GoString → Prop) (tmpls t : Registry)
    (name text : GoString) (ht : ∀ p ∈ tmpls, N p.1)
    (hn : ∀ trees, E.parse name text = some trees → ∀ q ∈ trees, N q.1)
    (h : Parse E tmpls name text = some t) : ∀ p ∈ t, N p.1 := by
  unfold Parse at h
  cases hp : E.parse name text with
  | none => simp [hp] at h
  | some trees =>
    simp only [hp, Option.some.injEq] at h
    rw [← h]
    exact foldl_addParseTree_names E N trees tmpls ht (hn trees hp)

theorem parseData_names (E : TemplateEnv) (N : GoString → Prop) (data : List GoString)
    (tmpls t : Registry) (ht : ∀ p ∈ tmpls, N p.1)
    (hn : ∀ d ∈ data, ∀ trees, E.parse (lit "render") d = some trees → ∀ q ∈ trees, N q.1)
    (h : parseData E tmpls data = some t) : ∀ p ∈ t, N p.1 := by
  induction data generalizing tmpls with
  | nil =>
    simp only [parseData, Option.some.injEq] at h
    rw [← h]
    exact ht
  | cons d rest ih =>
    simp only [parseData] at h
    cases hp : Parse E tmpls (lit "render") d with
    | none => simp [hp] at h
    | some t1 =>
      simp only [hp] at h
      exact ih t1
        (parse_names E N tmpls t1 _ d ht (hn d (List.mem_cons_self _ _)) hp)
        (fun x hx => hn x (List.mem_cons_of_mem _ hx)) h

theorem parseFiles_names (E : TemplateEnv) (N : GoString → Prop) (files : List GoString)
    (tmpls t : Registry) (ht : ∀ p ∈ tmpls, N p.1)
    (hn : ∀ f ∈ files, ∀ name text, E.readFile f = some (name, text) →
      ∀ trees, E.parse name text = some trees → ∀ q ∈ trees, N q.1)
    (h : parseFiles E tmpls files = some t) : ∀ p ∈ t, N p.1 := by
  induction files generalizing tmpls with
  | nil =>
    simp only [parseFiles, Option.some.injEq] at h
    rw [← h]
    exact ht
  | cons f rest ih =>
    simp only [parseFiles] at h
    cases hr : E.readFile f with
    | none => simp [hr] at h
    | some nt =>
      obtain ⟨name, text⟩ := nt
      simp only [hr] at h
      cases hp : Parse E tmpls name text with
      | none => simp [hp] at h
      | some t1 =>
        simp only [hp] at h
        exact ih t1
          (parse_names E N tmpls t1 _ _ ht (hn f (List.mem_cons_self _ _) name text hr) hp)
          (fun x hx => hn x (List.mem_cons_of_mem _ hx)) h

theorem parseCatalogue_names (E : TemplateEnv) (N : GoString → Prop) (name : GoString)
    (files : List GoString) (tmpls t : Registry) (ht : ∀ p ∈ tmpls, N p.1)
    (hn : ∀ f ∈ files, ∀ text, E.catalogueString (E.pathJoin [lit "/", name, f]) = some text →
      ∀ trees, E.parse (lit "render") text = some trees → ∀ q ∈ trees, N q.1)
    (h : parseCatalogue E name tmpls files = Except.ok t) : ∀ p ∈ t, N p.1 := by
  induction files generalizing tmpls with
  | nil =>
    simp only [parseCatalogue, Except.ok.injEq] at h
    rw [← h]
    exact ht
  | cons f rest ih =>
    simp only [parseCatalogue] at h
    cases hr : E.catalogueString (E.pathJoin [lit "/", name, f]) with
    | none => simp [hr] at h
    | some text =>
      simp only [hr] at h
      cases hp : Parse E tmpls (lit "render") text with
      | none => simp [hp] at h
      | some t1 =>
        simp only [hp] at h
        exact ih t1
          (parse_names E N tmpls t1 _ _ ht (hn f (List.mem_cons_self _ _) text hr) hp)
          (fun x hx => hn x (List.mem_cons_of_mem _ hx)) h

/-- Rendering the header with a registry that holds no template `header` fails
before anything is written. -/
theorem header_fails_of_no_template (E : TemplateEnv) (tmpls : Registry) (w : GoString)
    (h : Header) (hl : lookupTemplate tmpls (lit "header") = none) :
    render.Header E tmpls w h = (w, some (RenderError.noTemplate (lit "header"))) := by
  simp only [render.Header, ExecuteTemplate, hl]

/-- C19: each loader starts from the empty registry, so what it leaves after
the same load source does not depend on the registry it found; and after a
successful load from a source none of whose texts defines the template
`header`, the registry holds no template `header`, whatever the prior registry
held, and rendering a header fails with an error. -/
theorem C19_reload_destructive (E : TemplateEnv) (prior1 prior2 : Registry) :
    (∀ data, LoadFromData E prior1 data = LoadFromData E prior2 data)
      ∧ (∀ dir, LoadCustomTemplates E prior1 dir = LoadCustomTemplates E prior2 dir)
      ∧ (∀ name, LoadCustomTemplatesName E prior1 name = LoadCustomTemplatesName E prior2 name)
      ∧ (∀ data tmpls, LoadFromData E prior1 data = Except.ok tmpls →
          (∀ d ∈ data, ∀ trees, E.parse (lit "render") d = some trees →
            ∀ q ∈ trees, q.1 ≠ lit "header") →
          lookupTemplate tmpls (lit "header") = none
            ∧ ∀ w h, render.Header E tmpls w h
                = (w, some (RenderError.noTemplate (lit "header"))))
      ∧ (∀ dir tmpls, LoadCustomTemplates E prior1 dir = Except.ok tmpls →
          (∀ files, E.readDir dir = some files → ∀ f ∈ files, ∀ name text,
            E.readFile (E.pathJoin [dir, f]) = some (name, text) →
            ∀ trees, E.parse name text = some trees → ∀ q ∈ trees, q.1 ≠ lit "header") →
          lookupTemplate tmpls (lit "header") = none
            ∧ ∀ w h, render.Header E tmpls w h
                = (w, some (RenderError.noTemplate (lit "header"))))
      ∧ (∀ name tmpls, LoadCustomTemplatesName E prior1 name = Except.ok tmpls →
          (∀ files, E.catalogueReaddir name nFile = some files → ∀ f ∈ files, ∀ text,
            E.catalogueString (E.pathJoin [lit "/", name, f]) = some text →
            ∀ trees, E.parse (lit "render") text = some trees →
            ∀ q ∈ trees, q.1 ≠ lit "header") →
          lookupTemplate tmpls (lit "header") = none
            ∧ ∀ w h, render.Header E tmpls w h
                = (w, some (RenderError.noTemplate (lit "header")))) := by
  have hempty : ∀ p ∈ initEmptyTmpls prior1, p.1 ≠ lit "header" := by
    intro p hp
    simp [initEmptyTmpls] at hp
  have hdone : ∀ tmpls : Registry, (∀ p ∈ tmpls, p.1 ≠ lit "header") →
      lookupTemplate tmpls (lit "header") = none
        ∧ ∀ w h, render.Header E tmpls w h
            = (w, some (RenderError.noTemplate (lit "header"))) := by
    intro tmpls hn
    have hl := lookupTemplate_eq_none hn
    exact ⟨hl, fun w h => header_fails_of_no_template E tmpls w h hl⟩
  refine ⟨fun _ => rfl, fun _ => rfl, fun _ => rfl, ?_, ?_, ?_⟩
  · intro data tmpls hload hsrc
    apply hdone
    simp only [LoadFromData] at hload
    cases hp : parseData E (initEmptyTmpls prior1) data with
    | none => simp [hp] at hload
    | some t =>
      simp only [hp, Except.ok.injEq] at hload
      rw [← hload]
      exact parseData_names E (fun n => n ≠ lit "header") data _ t hempty hsrc hp
  · intro dir tmpls hload hsrc
    apply hdone
    simp only [LoadCustomTemplates] at hload
    cases hr : E.readDir dir with
    | none => simp [hr] at hload
    | some files =>
      simp only [hr, ParseFiles] at hload
      split_ifs at hload
      cases hp : parseFiles E (initEmptyTmpls prior1)
          (files.map (fun f => E.pathJoin [dir, f])) with
      | none => simp [hp] at hload
      | some t =>
        simp only [hp, Except.ok.injEq] at hload
        rw [← hload]
        refine parseFiles_names E (fun n => n ≠ lit "header") _ _ t hempty ?_ hp
        intro f hf name text hread
        obtain ⟨f0, hf0, rfl⟩ := List.mem_map.mp hf
        exact hsrc files hr f0 hf0 name text hread
  · intro name tmpls hload hsrc
    apply hdone
    simp only [LoadCustomTemplatesName] at hload
    split_ifs at hload
    cases hr : E.catalogueReaddir name nFile with
    | none => simp [hr] at hload
    | some files =>
      simp only [hr] at hload
      exact parseCatalogue_names E (fun n => n ≠ lit "header") name files _ tmpls hempty
        (hsrc files hr) hload

/-- C19 with the evaluation environment: the registry holds `header` and
`function`; loading one text that defines `function` only succeeds, leaves
`function` alone, and rendering a header then fails; with the prior registry
the same render wrote the header and the code. -/
theorem C19_reload_destructive_witness :
    lookupTemplate defaultRegistry (lit "header") = some (lit "package x")
      ∧ render.Header lineEnv defaultRegistry [] emptyHeader
          = (lit "package x// code", none)
      ∧ LoadFromData lineEnv defaultRegistry [lit "function\nfunc TestY"]
          = Except.ok [(lit "function", lit "func TestY")]
      ∧ LoadFromData lineEnv [] [lit "function\nfunc TestY"]
          = Except.ok [(lit "function", lit "func TestY")]
      ∧ render.Header lineEnv [(lit "function", lit "func TestY")] [] emptyHeader
          = ([], some (RenderError.noTemplate (lit "header"))) := by
  have hload : LoadFromData lineEnv defaultRegistry [lit "function\nfunc TestY"]
      = Except.ok [(lit "function", lit "func TestY")] := by
    have hp : parseData lineEnv [] [lit "function\nfunc TestY"]
        = some [(lit "function", lit "func TestY")] := by decide
    simp only [LoadFromData, initEmptyTmpls, hp]
  have h := C19_reload_destructive lineEnv defaultRegistry []
  refine ⟨by decide, by decide, hload, ?_, ?_⟩
  · rw [← h.1]
    exact hload
  · refine ((h.2.2.2.1 _ _ hload ?_).2 [] emptyHeader)
    decide

end Gotests
